import Mathlib

/-!
Shallow embedding of the `ring` package (a fixed-capacity generic circular
buffer, `src/ring.go`) and verification of its specification claims.

The Go struct `Ring[T]{buf []T; head, tail, count int}` is modelled as a
structure over `List T` with `Nat` indices (all reachable Go states keep the
fields non-negative; where Go arithmetic on possibly-negative intermediate
values matters, `Int` is used explicitly and truncated modulus `Int.tmod`
models Go's `%`).  Go's zero value for the element type is modelled by
`default : T` from an `Inhabited` instance.

Operations that can panic in Go are modelled in
`Except (RingErr × Ring T) _`: the error carries the panic payload and the
ring state as it stood when the panic fired, so "no partial mutation on
failure" is a provable statement.  Method bodies are translated
statement by statement from `src/ring.go`.
-/

set_option maxHeartbeats 1600000

namespace GoRing

/-- Panic payloads of the Go code: the formatted out-of-range message of
`outOfRangeText` (index and reported length), the empty-buffer messages of
`PopFront`/`PopBack`/`Front`/`Back`, the full-buffer message of `Insert`,
and the two Go runtime panics reachable in the code (slice index out of
range, integer division by zero from `%` with a zero modulus). -/
inductive RingErr where
  | outOfRange (i : Int) (len : Nat)
  | emptyBuffer (msg : String)
  | fullBuffer
  | runtimeOutOfBounds (i : Nat) (len : Nat)
  | runtimeDivByZero
  deriving DecidableEq, Repr

/-- The Go struct `Ring[T]`: backing slice `buf`, physical index `head` of the
logical front, physical index `tail` one past the logical back, and element
count `count`. -/
structure Ring (T : Type) where
  buf : List T
  head : Nat
  tail : Nat
  count : Nat
  deriving DecidableEq, Repr

/-- `New[T](capacity)`: `make([]T, capacity)` yields `capacity` zero values. -/
def New (T : Type) [Inhabited T] (capacity : Nat) : Ring T :=
  ⟨List.replicate capacity default, 0, 0, 0⟩

namespace Ring

variable {T : Type} [Inhabited T]

/-- Go slice read `r.buf[i]`; panics (runtime out-of-range) when `i` is not a
valid index.  The error carries the ring as it stood at the read. -/
def goGet (r : Ring T) (i : Nat) : Except (RingErr × Ring T) T :=
  match r.buf[i]? with
  | some v => .ok v
  | none => .error (.runtimeOutOfBounds i r.buf.length, r)

/-- Go slice write `r.buf[i] = v`; panics (runtime out-of-range) when `i` is
not a valid index. -/
def goSet (r : Ring T) (i : Nat) (v : T) : Except (RingErr × Ring T) (Ring T) :=
  if i < r.buf.length then .ok { r with buf := r.buf.set i v }
  else .error (.runtimeOutOfBounds i r.buf.length, r)

/-- `Cap`: `len(r.buf)` (the nil-receiver case lives in the `ORing` layer). -/
def Cap (r : Ring T) : Nat := r.buf.length

/-- `Len`: `r.count` (the nil-receiver case lives in the `ORing` layer). -/
def Len (r : Ring T) : Nat := r.count

/-- `Full`: `r.count == len(r.buf)`. -/
def Full (r : Ring T) : Bool := r.count == r.buf.length

/-- `next`: `(i + 1) % len(r.buf)`.  Callers only reach it with a non-empty
buffer (a zero-length buffer makes the callers fail earlier). -/
def next (r : Ring T) (i : Nat) : Nat := (i + 1) % r.buf.length

/-- `prev`: Go computes `(i - 1 + l) % l` on ints; for `l ≥ 1` and `i ≥ 0`
this equals `(i + l - 1) % l` on naturals (the subtraction cannot underflow
because `i + l ≥ 1`).  A zero-length buffer makes Go divide by zero; callers
check for that case before calling. -/
def prev (r : Ring T) (i : Nat) : Nat := (i + r.buf.length - 1) % r.buf.length

/-- `PushBack`: write at `tail`, advance `tail`; if full advance `head`,
else increment `count`.  The initial write `r.buf[r.tail] = elem` is the only
fallible step (it panics when `tail ≥ len(buf)`, in particular on a
zero-capacity ring). -/
def PushBack (r : Ring T) (elem : T) : Except (RingErr × Ring T) (Ring T) := do
  let r1 ← goSet r r.tail elem
  let r2 := { r1 with tail := r1.next r1.tail }
  if r2.count = r2.buf.length then
    return { r2 with head := r2.next r2.head }
  else
    return { r2 with count := r2.count + 1 }

/-- `PushFront`: `head = prev(head)` first (Go divides by zero here when the
buffer has length 0), write at the new `head`; if full retreat `tail`, else
increment `count`. -/
def PushFront (r : Ring T) (elem : T) : Except (RingErr × Ring T) (Ring T) :=
  if r.buf.length = 0 then .error (.runtimeDivByZero, r)
  else
    let r0 := { r with head := r.prev r.head }
    do
      let r1 ← goSet r0 r0.head elem
      if r1.count = r1.buf.length then
        return { r1 with tail := r1.prev r1.tail }
      else
        return { r1 with count := r1.count + 1 }

/-- `PopFront`: panics when empty; reads `buf[head]`, zeroes the slot,
advances `head`, decrements `count`. -/
def PopFront (r : Ring T) : Except (RingErr × Ring T) (T × Ring T) :=
  if r.count = 0 then .error (.emptyBuffer "PopFront called when empty", r)
  else do
    let ret ← r.goGet r.head
    let r1 ← goSet r r.head default
    return (ret, { r1 with head := r1.next r1.head, count := r1.count - 1 })

/-- `PopBack`: panics when empty; `tail = prev(tail)` (divide-by-zero when the
buffer has length 0), reads and zeroes `buf[tail]`, decrements `count`. -/
def PopBack (r : Ring T) : Except (RingErr × Ring T) (T × Ring T) :=
  if r.count = 0 then .error (.emptyBuffer "PopBack called when empty", r)
  else if r.buf.length = 0 then .error (.runtimeDivByZero, r)
  else
    let r0 := { r with tail := r.prev r.tail }
    do
      let ret ← r0.goGet r0.tail
      let r1 ← goSet r0 r0.tail default
      return (ret, { r1 with count := r1.count - 1 })

/-- `Front`: panics when empty, else reads `buf[head]`. -/
def Front (r : Ring T) : Except (RingErr × Ring T) T :=
  if r.count = 0 then .error (.emptyBuffer "Front called when empty", r)
  else r.goGet r.head

/-- `Back`: panics when empty, else reads `buf[prev(tail)]` (divide-by-zero
when the buffer has length 0, an unreachable state for well-formed rings). -/
def Back (r : Ring T) : Except (RingErr × Ring T) T :=
  if r.count = 0 then .error (.emptyBuffer "Back called when empty", r)
  else if r.buf.length = 0 then .error (.runtimeDivByZero, r)
  else r.goGet (r.prev r.tail)

/-- `At(i)`: bounds check `i < 0 || i >= r.Len()` panics with
`outOfRangeText(i, r.Len())`; then reads `buf[(head+i) % len(buf)]` (the `%`
divides by zero when the buffer has length 0, an ill state). -/
def At (r : Ring T) (i : Int) : Except (RingErr × Ring T) T :=
  if i < 0 ∨ (r.Len : Int) ≤ i then .error (.outOfRange i r.Len, r)
  else if r.buf.length = 0 then .error (.runtimeDivByZero, r)
  else r.goGet ((r.head + i.toNat) % r.buf.length)

/-- `Set(i, item)`: same bounds check as `At`, then writes
`buf[(head+i) % len(buf)] = item` (always in range once the modulus is
non-zero). -/
def Set (r : Ring T) (i : Int) (item : T) : Except (RingErr × Ring T) (Ring T) :=
  if i < 0 ∨ (r.Len : Int) ≤ i then .error (.outOfRange i r.Len, r)
  else if r.buf.length = 0 then .error (.runtimeDivByZero, r)
  else goSet r ((r.head + i.toNat) % r.buf.length) item

/-- Body of `Rotate`'s forward loop (`n > 0`), run `k` times:
`buf[tail] = buf[head]; buf[head] = zero; head = (head+1)%l; tail = (tail+1)%l`.
A failing slice access panics mid-loop, carrying the state rotated so far. -/
def rotFwd : Ring T → Nat → Except (RingErr × Ring T) (Ring T)
  | r, 0 => .ok r
  | r, k + 1 => do
    let v ← r.goGet r.head
    let r1 ← goSet r r.tail v
    let r2 ← goSet r1 r1.head default
    rotFwd { r2 with head := (r2.head + 1) % r2.buf.length,
                     tail := (r2.tail + 1) % r2.buf.length } k

/-- Body of `Rotate`'s backward loop (`n < 0`), run `k` times:
`head = (head-1+l)%l; tail = (tail-1+l)%l; buf[head] = buf[tail];
buf[tail] = zero`. -/
def rotBwd : Ring T → Nat → Except (RingErr × Ring T) (Ring T)
  | r, 0 => .ok r
  | r, k + 1 =>
    let r0 := { r with head := r.prev r.head, tail := r.prev r.tail }
    do
      let v ← r0.goGet r0.tail
      let r1 ← goSet r0 r0.head v
      let r2 ← goSet r1 r1.tail default
      rotBwd r2 k

/-- `Rotate(n)`: no-op when `Len() ≤ 1`; reduce `n` by Go's truncated `%`
(`Int.tmod`); no-op when the reduction is 0; pure index move when
`head == tail` (`head = (head + n + l) % l`, all values non-negative there);
otherwise run the element-moving loop `|n|` times. -/
def Rotate (r : Ring T) (n : Int) : Except (RingErr × Ring T) (Ring T) :=
  if r.Len ≤ 1 then .ok r
  else
    let n1 := Int.tmod n (r.count : Int)
    if n1 = 0 then .ok r
    else
      let l := r.buf.length
      if r.head = r.tail then
        let h := (((r.head : Int) + n1 + (l : Int)).toNat) % l
        .ok { r with head := h, tail := h }
      else if n1 < 0 then rotBwd r n1.natAbs
      else rotFwd r n1.natAbs

/-- `Index(f)`: linear scan of logical positions `0..count-1` in increasing
order, testing `f(buf[(head+i) % len(buf)])`; first hit or `-1`. -/
def Index (r : Ring T) (f : T → Bool) : Int :=
  match (List.range r.count).find?
      (fun i => f (r.buf.getD ((r.head + i) % r.buf.length) default)) with
  | some i => (i : Int)
  | none => -1

/-- `RIndex(f)`: scans logical positions `count-1` down to `0`.  NOTE the
source hoists `l := r.Len()` and tests `f(r.buf[(r.head+i)%l])` — the modulus
is the element count, not `len(r.buf)` as in `Index`; the embedding keeps
that modulus faithfully. -/
def RIndex (r : Ring T) (f : T → Bool) : Int :=
  match (List.range r.count).reverse.find?
      (fun i => f (r.buf.getD ((r.head + i) % r.count) default)) with
  | some i => (i : Int)
  | none => -1

/-- Go's parallel assignment `buf[i], buf[j] = buf[j], buf[i]`.  Reads happen
before writes; both indices are in range at every call site reached from a
well-formed ring. -/
def swapAt (l : List T) (i j : Nat) : List T :=
  (l.set i (l.getD j default)).set j (l.getD i default)

/-- `Insert`'s front-half loop: starting at physical position `front`, `k`
times swap `buf[front]` with `buf[next(front)]` and step `front` forward. -/
def insertShiftF : Ring T → Nat → Nat → Ring T
  | r, _, 0 => r
  | r, front, k + 1 =>
    let nxt := (front + 1) % r.buf.length
    insertShiftF { r with buf := swapAt r.buf front nxt } nxt k

/-- `Insert`'s back-half loop: starting at physical position `back`, `k`
times swap `buf[back]` with `buf[prev(back)]` and step `back` backward. -/
def insertShiftB : Ring T → Nat → Nat → Ring T
  | r, _, 0 => r
  | r, back, k + 1 =>
    let prv := (back + r.buf.length - 1) % r.buf.length
    insertShiftB { r with buf := swapAt r.buf back prv } prv k

/-- `Insert(at, item)`: panics out-of-range when `at < 0 || at > count`, then
panics when full; else pushes at the cheaper end and bubbles the new element
to position `at` by adjacent swaps. -/
def Insert (r : Ring T) (pos : Int) (item : T) : Except (RingErr × Ring T) (Ring T) :=
  if pos < 0 ∨ (r.count : Int) < pos then .error (.outOfRange pos r.Len, r)
  else if r.Full then .error (.fullBuffer, r)
  else
    let a := pos.toNat
    if a * 2 < r.count then do
      let r1 ← r.PushFront item
      return insertShiftF r1 r1.head a
    else do
      let swaps := r.count - a
      let r1 ← r.PushBack item
      return insertShiftB r1 (r1.prev r1.tail) swaps

/-- `Remove`'s front-half loop: starting at physical position `rm`, `k`
times swap `buf[prev(rm)]` with `buf[rm]` and step `rm` backward. -/
def removeShiftF : Ring T → Nat → Nat → Ring T
  | r, _, 0 => r
  | r, rm, k + 1 =>
    let prv := (rm + r.buf.length - 1) % r.buf.length
    removeShiftF { r with buf := swapAt r.buf prv rm } prv k

/-- `Remove`'s back-half loop: starting at physical position `rm`, `k`
times swap `buf[rm]` with `buf[next(rm)]` and step `rm` forward. -/
def removeShiftB : Ring T → Nat → Nat → Ring T
  | r, _, 0 => r
  | r, rm, k + 1 =>
    let nxt := (rm + 1) % r.buf.length
    removeShiftB { r with buf := swapAt r.buf rm nxt } nxt k

/-- `Remove(at)`: panics out-of-range when `at < 0 || at >= Len()`; computes
`rm = (head+at) % len(buf)` (divide-by-zero in an ill state), bubbles the
element to the cheaper end and pops it there. -/
def Remove (r : Ring T) (pos : Int) : Except (RingErr × Ring T) (T × Ring T) :=
  if pos < 0 ∨ (r.Len : Int) ≤ pos then .error (.outOfRange pos r.Len, r)
  else if r.buf.length = 0 then .error (.runtimeDivByZero, r)
  else
    let a := pos.toNat
    let rm := (r.head + a) % r.buf.length
    if a * 2 < r.count then
      (removeShiftF r rm a).PopFront
    else
      (removeShiftB r rm (r.count - a - 1)).PopBack

/-- `Reset`: zero the `count` occupied slots `(head+i) % len(buf)`, then set
`head = tail = count = 0`, keeping the storage. -/
def Reset (r : Ring T) : Ring T :=
  let l := r.buf.length
  { buf := (List.range r.count).foldl (fun b i => b.set ((r.head + i) % l) default) r.buf,
    head := 0, tail := 0, count := 0 }

/-- Go's `n = copy(dst[k:], src)`: copies `m = min(len(dst)-k, len(src))`
elements of `src` into `dst` starting at `k`; returns the new list and `m`.
Call sites keep `k ≤ len(dst)`. -/
def goCopy (dst : List T) (k : Nat) (src : List T) : List T × Nat :=
  let m := min (dst.length - k) src.length
  (dst.take k ++ src.take m ++ dst.drop (k + m), m)

/-- `Resize(newSize)`: early return when `count == newSize`; else allocate
`newSize` zero slots, copy `buf[head:tail]` when `tail > head`, otherwise
copy `buf[head:]` and, when that did not already fill `len(buf)` elements,
`buf[:tail]` after it; then `count = n, head = 0, tail = n`.  (Go slice
expressions `buf[head:]`, `buf[:tail]`, `buf[head:tail]` are `drop`/`take`;
all slice bounds are within range in every reachable state.) -/
def Resize (r : Ring T) (newSize : Nat) : Ring T :=
  if r.count = newSize then r
  else
    let newBuf := List.replicate newSize (default : T)
    if r.head < r.tail then
      let p := goCopy newBuf 0 ((r.buf.take r.tail).drop r.head)
      { buf := p.1, head := 0, tail := p.2, count := p.2 }
    else
      let p1 := goCopy newBuf 0 (r.buf.drop r.head)
      if p1.2 < r.buf.length then
        let p2 := goCopy p1.1 p1.2 (r.buf.take r.tail)
        { buf := p2.1, head := 0, tail := p1.2 + p2.2, count := p1.2 + p2.2 }
      else
        { buf := p1.1, head := 0, tail := p1.2, count := p1.2 }

/-- Well-formedness of a ring state as maintained by `New` and the push/pop
operations: `count` fits in the storage, `head` is a valid slot (or 0 for a
zero-capacity ring), and `tail` is `head + count` reduced modulo the
capacity. -/
def WF (r : Ring T) : Prop :=
  r.count ≤ r.buf.length ∧ (r.head = 0 ∨ r.head < r.buf.length) ∧
    r.tail = (r.head + r.count) % r.buf.length

/-- Relaxed well-formedness covering every reachable state: `Resize` to a
size `≤ count` leaves `tail = len(buf)` (one past the last valid slot)
instead of the reduced `0`, so `tail` may also sit at `len(buf)` when
`head + count` reduces to `0`. -/
def WFx (r : Ring T) : Prop :=
  r.count ≤ r.buf.length ∧ (r.head = 0 ∨ r.head < r.buf.length) ∧
    (r.tail = (r.head + r.count) % r.buf.length ∨
      (r.tail = r.buf.length ∧ (r.head + r.count) % r.buf.length = 0))

/-- Every storage slot not holding one of the `count` logical elements
contains the zero value. -/
def Zeroes (r : Ring T) : Prop :=
  ∀ j < r.buf.length, (∀ i < r.count, (r.head + i) % r.buf.length ≠ j) →
    r.buf.getD j default = default

/-- The logical front-to-back contents: element `i` lives in storage slot
`(head + i) % len(buf)`. -/
def toList (r : Ring T) : List T :=
  (List.range r.count).map fun i => r.buf.getD ((r.head + i) % r.buf.length) default

instance (r : Ring T) : Decidable (WF r) := by unfold WF; infer_instance

instance (r : Ring T) : Decidable (WFx r) := by unfold WFx; infer_instance

instance [DecidableEq T] (r : Ring T) : Decidable (Zeroes r) := by
  unfold Zeroes; infer_instance

/-- Ring states reachable from a constructed ring through the exported
operations, following only non-panicking outcomes. -/
inductive Reachable [Inhabited T] : Ring T → Prop where
  | new (c : Nat) : Reachable (New T c)
  | pushBack {r r' : Ring T} (v : T) : Reachable r → r.PushBack v = .ok r' → Reachable r'
  | pushFront {r r' : Ring T} (v : T) : Reachable r → r.PushFront v = .ok r' → Reachable r'
  | popFront {r r' : Ring T} {v : T} : Reachable r → r.PopFront = .ok (v, r') → Reachable r'
  | popBack {r r' : Ring T} {v : T} : Reachable r → r.PopBack = .ok (v, r') → Reachable r'
  | set {r r' : Ring T} (i : Int) (v : T) : Reachable r → r.Set i v = .ok r' → Reachable r'
  | rotate {r r' : Ring T} (n : Int) : Reachable r → r.Rotate n = .ok r' → Reachable r'
  | insert {r r' : Ring T} (pos : Int) (v : T) : Reachable r → r.Insert pos v = .ok r' → Reachable r'
  | remove {r r' : Ring T} {v : T} (pos : Int) : Reachable r → r.Remove pos = .ok (v, r') → Reachable r'
  | reset {r : Ring T} : Reachable r → Reachable r.Reset
  | resize {r : Ring T} (n : Nat) : Reachable r → Reachable (r.Resize n)

/-- Boolean success test for modelled operations. -/
def okb {e a : Type} : Except e a → Bool
  | .ok _ => true
  | .error _ => false

/-- "No partial mutation on failure": when the outcome is a panic, the state
it carries is exactly `r`; a success imposes nothing. -/
def failsTo {α : Type} (x : Except (RingErr × Ring T) α) (r : Ring T) : Prop :=
  match x with
  | .ok _ => True
  | .error (_, s) => s = r

/-- The failure contract of the fallible operations at one ring state and one
choice of arguments: `At`, `Set` and `Remove` succeed exactly when the index
is in `[0, count)`, `Insert` succeeds exactly when the position is in
`[0, count]` and the ring is not full, `Front`, `Back`, `PopFront` and
`PopBack` succeed exactly when the ring is non-empty, and every failure
carries the ring unmutated. -/
def FailContract (r : Ring T) (i pos : Int) (v : T) : Prop :=
  ((∃ x, r.At i = .ok x) ↔ 0 ≤ i ∧ i < (r.count : Int)) ∧ failsTo (r.At i) r ∧
  ((∃ s, r.Set i v = .ok s) ↔ 0 ≤ i ∧ i < (r.count : Int)) ∧ failsTo (r.Set i v) r ∧
  ((∃ p, r.Remove pos = .ok p) ↔ 0 ≤ pos ∧ pos < (r.count : Int)) ∧
    failsTo (r.Remove pos) r ∧
  ((∃ s, r.Insert pos v = .ok s) ↔
    (0 ≤ pos ∧ pos ≤ (r.count : Int)) ∧ r.count ≠ r.buf.length) ∧
    failsTo (r.Insert pos v) r ∧
  ((∃ x, r.Front = .ok x) ↔ r.count ≠ 0) ∧ failsTo r.Front r ∧
  ((∃ x, r.Back = .ok x) ↔ r.count ≠ 0) ∧ failsTo r.Back r ∧
  ((∃ p, r.PopFront = .ok p) ↔ r.count ≠ 0) ∧ failsTo r.PopFront r ∧
  ((∃ p, r.PopBack = .ok p) ↔ r.count ≠ 0) ∧ failsTo r.PopBack r

end Ring

/-!  Nil-receiver layer: Go methods take a possibly-nil `*Ring[T]`, modelled
as `Option (Ring T)`.  `Cap`, `Len`, `Index`, `RIndex` and `Rotate` test the
receiver (directly or via `Len`) and act as on an empty ring; `At` and `Set`
reach their bounds check first, where `r.Len() = 0` for a nil receiver makes
the check fire for every index, so they panic with `outOfRangeText(i, 0)`
without ever dereferencing the receiver. -/

namespace ORing

variable {T : Type} [Inhabited T]

/-- `Cap` with nil-receiver check. -/
def Cap (r : Option (Ring T)) : Nat :=
  match r with
  | none => 0
  | some rr => rr.Cap

/-- `Len` with nil-receiver check. -/
def Len (r : Option (Ring T)) : Nat :=
  match r with
  | none => 0
  | some rr => rr.Len

/-- `Index` on a possibly-nil receiver: `r.Len() > 0` is false for nil, so
the loop is skipped and `-1` returned. -/
def Index (r : Option (Ring T)) (f : T → Bool) : Int :=
  match r with
  | none => -1
  | some rr => rr.Index f

/-- `RIndex` on a possibly-nil receiver: `r.Len() > 0` is false for nil, so
the loop is skipped and `-1` returned. -/
def RIndex (r : Option (Ring T)) (f : T → Bool) : Int :=
  match r with
  | none => -1
  | some rr => rr.RIndex f

/-- `Rotate` on a possibly-nil receiver: `r.Len() <= 1` holds for nil, so the
method returns with no effect. -/
def Rotate (r : Option (Ring T)) (n : Int) : Except (RingErr × Option (Ring T)) (Option (Ring T)) :=
  match r with
  | none => .ok none
  | some rr =>
    match rr.Rotate n with
    | .ok r' => .ok (some r')
    | .error (e, s) => .error (e, some s)

/-- `At` on a possibly-nil receiver: for nil, the bounds check
`i < 0 || i >= r.Len()` sees `r.Len() = 0` and fires for every `i`, so the
method panics with the out-of-range error before touching `r.buf`. -/
def At (r : Option (Ring T)) (i : Int) : Except (RingErr × Option (Ring T)) T :=
  match r with
  | none => .error (.outOfRange i 0, none)
  | some rr =>
    match rr.At i with
    | .ok v => .ok v
    | .error (e, s) => .error (e, some s)

/-- `Set` on a possibly-nil receiver: same shape as `At`. -/
def Set (r : Option (Ring T)) (i : Int) (item : T) : Except (RingErr × Option (Ring T)) (Option (Ring T)) :=
  match r with
  | none => .error (.outOfRange i 0, none)
  | some rr =>
    match rr.Set i item with
    | .ok r' => .ok (some r')
    | .error (e, s) => .error (e, some s)

end ORing

/-- A sample well-formed wrapped ring used by witnesses: capacity 4, three
elements `20, 30, 40` stored in slots 1–3 (`head = 1`, `tail = 0`), slot 0
vacated (zeroed) by an earlier pop.  It is the state produced by
`New Int 4` followed by `PushBack 10/20/30/40` and one `PopFront`. -/
def exRing : Ring Int := ⟨[0, 20, 30, 40], 1, 0, 3⟩

/-- A sample full well-formed ring used by witnesses: capacity 4, elements
`30, 40, 10, 20` front to back (`head = tail = 2`). -/
def exFull : Ring Int := ⟨[10, 20, 30, 40], 2, 2, 4⟩

/-! ### Lemmas: buffer access and modular index arithmetic -/

namespace Ring

variable {T : Type} [Inhabited T]

theorem getD_set (l : List T) (i j : Nat) (v d : T) :
    (l.set i v).getD j d = if i = j ∧ i < l.length then v else l.getD j d := by
  rw [List.getD_eq_getElem?_getD, List.getD_eq_getElem?_getD, List.getElem?_set]
  by_cases h : i = j
  · subst h
    by_cases h2 : i < l.length
    · simp [h2]
    · simp [h2, List.getElem?_eq_none (Nat.le_of_not_lt h2)]
  · simp [h]

theorem length_swapAt (l : List T) (i j : Nat) : (swapAt l i j).length = l.length := by
  simp [swapAt]

theorem getD_swapAt (l : List T) (i j k : Nat) (hi : i < l.length) (hj : j < l.length) :
    (swapAt l i j).getD k default =
      if j = k then l.getD i default
      else if i = k then l.getD j default
      else l.getD k default := by
  unfold swapAt
  rw [getD_set, getD_set, List.length_set]
  by_cases hjk : j = k
  · subst hjk
    simp [hj]
  · by_cases hik : i = k
    · subst hik
      simp [hjk, hi]
    · simp [hjk, hik]

theorem slot_inj {n : Nat} {h i j : Nat} (hi : i < n) (hj : j < n)
    (e : (h + i) % n = (h + j) % n) : i = j := by
  have h1 : Nat.ModEq n (h + i) (h + j) := e
  have h2 : Nat.ModEq n i j := Nat.ModEq.add_left_cancel' h h1
  rwa [Nat.ModEq, Nat.mod_eq_of_lt hi, Nat.mod_eq_of_lt hj] at h2

theorem slot_lt {n : Nat} (hn : 0 < n) (h i : Nat) : (h + i) % n < n := Nat.mod_lt _ hn

theorem slot_succ {n : Nat} (h i : Nat) : ((h + i) % n + 1) % n = (h + (i + 1)) % n := by
  rw [Nat.mod_add_mod, Nat.add_assoc]

theorem slot_pred {n : Nat} (hn : 0 < n) (h : Nat) {i : Nat} (hi : 1 ≤ i) :
    ((h + i) % n + n - 1) % n = (h + (i - 1)) % n := by
  have e1 : (h + i) % n + n - 1 = (h + i) % n + (n - 1) := by omega
  rw [e1, Nat.mod_add_mod]
  have e2 : h + i + (n - 1) = (h + (i - 1)) + n := by omega
  rw [e2, Nat.add_mod_right]

theorem toList_length (r : Ring T) : (toList r).length = r.count := by simp [toList]

theorem toList_getElem (r : Ring T) (i : Nat) (h : i < (toList r).length) :
    (toList r)[i] = r.buf.getD ((r.head + i) % r.buf.length) default := by
  simp [toList]

theorem toList_getD (r : Ring T) {i : Nat} (h : i < r.count) :
    (toList r).getD i default = r.buf.getD ((r.head + i) % r.buf.length) default := by
  rw [List.getD_eq_getElem _ _ (by simpa [toList_length] using h), toList_getElem]

theorem WF.head_lt {r : Ring T} (hwf : WF r) (hc : 0 < r.buf.length) :
    r.head < r.buf.length := by
  rcases hwf.2.1 with h | h <;> omega

theorem WF.tail_lt {r : Ring T} (hwf : WF r) (hc : 0 < r.buf.length) :
    r.tail < r.buf.length := by
  rw [hwf.2.2]; exact Nat.mod_lt _ hc

theorem WF.count_le {r : Ring T} (hwf : WF r) : r.count ≤ r.buf.length := hwf.1

theorem WF.tail_eq {r : Ring T} (hwf : WF r) :
    r.tail = (r.head + r.count) % r.buf.length := hwf.2.2

theorem WF.wfx {r : Ring T} (hwf : WF r) : WFx r :=
  ⟨hwf.1, hwf.2.1, Or.inl hwf.2.2⟩

/-! ### Lemmas: explicit result states of the push/pop operations -/

theorem pushBack_eq_not_full {r : Ring T} (hwf : WF r) (hcnt : r.count < r.buf.length) (v : T) :
    r.PushBack v = .ok ⟨r.buf.set r.tail v, r.head, (r.tail + 1) % r.buf.length, r.count + 1⟩ := by
  have hc : 0 < r.buf.length := by omega
  have ht : r.tail < r.buf.length := hwf.tail_lt hc
  unfold PushBack goSet next
  simp only [ht, if_pos, Bind.bind, Except.bind, Pure.pure, Except.pure, List.length_set]
  rw [if_neg (by omega)]

theorem pushBack_eq_full {r : Ring T} (hwf : WF r) (hc : 0 < r.buf.length)
    (hcnt : r.count = r.buf.length) (v : T) :
    r.PushBack v = .ok ⟨r.buf.set r.tail v, (r.head + 1) % r.buf.length,
      (r.tail + 1) % r.buf.length, r.count⟩ := by
  have ht : r.tail < r.buf.length := hwf.tail_lt hc
  unfold PushBack goSet next
  simp only [ht, if_pos, Bind.bind, Except.bind, Pure.pure, Except.pure, List.length_set]
  rw [if_pos hcnt]

theorem pushFront_eq_not_full {r : Ring T} (hcnt : r.count < r.buf.length) (v : T) :
    r.PushFront v = .ok ⟨r.buf.set ((r.head + r.buf.length - 1) % r.buf.length) v,
      (r.head + r.buf.length - 1) % r.buf.length, r.tail, r.count + 1⟩ := by
  have hc : 0 < r.buf.length := by omega
  have hh : (r.head + r.buf.length - 1) % r.buf.length < r.buf.length := Nat.mod_lt _ hc
  unfold PushFront goSet prev
  rw [if_neg (by omega)]
  simp only [hh, if_pos, Bind.bind, Except.bind, Pure.pure, Except.pure, List.length_set]
  rw [if_neg (by omega)]

theorem pushFront_eq_full {r : Ring T} (hc : 0 < r.buf.length)
    (hcnt : r.count = r.buf.length) (v : T) :
    r.PushFront v = .ok ⟨r.buf.set ((r.head + r.buf.length - 1) % r.buf.length) v,
      (r.head + r.buf.length - 1) % r.buf.length,
      (r.tail + r.buf.length - 1) % r.buf.length, r.count⟩ := by
  have hh : (r.head + r.buf.length - 1) % r.buf.length < r.buf.length := Nat.mod_lt _ hc
  unfold PushFront goSet prev
  rw [if_neg (by omega)]
  simp only [hh, if_pos, Bind.bind, Except.bind, Pure.pure, Except.pure, List.length_set]
  rw [if_pos hcnt]

theorem popFront_eq {r : Ring T} (hwf : WF r) (hcnt : 0 < r.count) :
    r.PopFront = .ok (r.buf.getD r.head default,
      ⟨r.buf.set r.head default, (r.head + 1) % r.buf.length, r.tail, r.count - 1⟩) := by
  have hc : 0 < r.buf.length := by have := hwf.count_le; omega
  have hh : r.head < r.buf.length := hwf.head_lt hc
  unfold PopFront goGet goSet next
  rw [if_neg (by omega)]
  rw [List.getElem?_eq_getElem hh]
  simp only [Bind.bind, Except.bind, Pure.pure, Except.pure, hh, if_pos, List.length_set]
  rw [List.getD_eq_getElem _ _ hh]

theorem popBack_eq {r : Ring T} (hwf : WF r) (hcnt : 0 < r.count) :
    r.PopBack = .ok (r.buf.getD ((r.tail + r.buf.length - 1) % r.buf.length) default,
      ⟨r.buf.set ((r.tail + r.buf.length - 1) % r.buf.length) default, r.head,
        (r.tail + r.buf.length - 1) % r.buf.length, r.count - 1⟩) := by
  have hc : 0 < r.buf.length := by have := hwf.count_le; omega
  have ht : (r.tail + r.buf.length - 1) % r.buf.length < r.buf.length := Nat.mod_lt _ hc
  unfold PopBack goGet goSet prev
  rw [if_neg (by omega), if_neg (by omega)]
  dsimp only
  rw [List.getElem?_eq_getElem ht]
  simp only [Bind.bind, Except.bind, Pure.pure, Except.pure, ht, if_pos, List.length_set]
  rw [List.getD_eq_getElem _ _ ht]

/-! ### Lemmas: logical contents of the push/pop results -/

theorem slot_base_ne {n : Nat} (hn : 0 < n) {h : Nat} (hh : h < n) {j : Nat} (hj : 0 < j)
    (hjn : j < n) : h ≠ (h + j) % n := by
  intro he
  have h0 : (h + 0) % n = (h + j) % n := by rwa [Nat.add_zero, Nat.mod_eq_of_lt hh]
  exact absurd (slot_inj hn hjn h0) (by omega)

theorem pushBack_spec {r : Ring T} (hwf : WF r) (hcnt : r.count < r.buf.length) (v : T) :
    ∃ r', r.PushBack v = .ok r' ∧ WF r' ∧ r'.count = r.count + 1 ∧
      r'.buf.length = r.buf.length ∧ r'.head = r.head ∧ toList r' = toList r ++ [v] := by
  have hc : 0 < r.buf.length := by omega
  refine ⟨_, pushBack_eq_not_full hwf hcnt v, ?_, rfl, by simp, rfl, ?_⟩
  · refine ⟨by simp; omega, by simpa using hwf.2.1, ?_⟩
    simp only [List.length_set]
    rw [hwf.tail_eq, slot_succ]
  · apply List.ext_getElem
    · simp [toList_length]
    intro i h1 h2
    have hilt : i < r.count + 1 := by simpa [toList_length] using h1
    rw [toList_getElem]
    simp only [List.length_set]
    rw [getD_set]
    by_cases hic : i = r.count
    · subst hic
      rw [if_pos ⟨by rw [hwf.tail_eq], hwf.tail_lt hc⟩,
        List.getElem_append_right (by simp [toList_length])]
      simp [toList_length]
    · have hi : i < r.count := by omega
      have hne : ¬(r.tail = (r.head + i) % r.buf.length ∧ r.tail < r.buf.length) := by
        rintro ⟨he, -⟩
        rw [hwf.tail_eq] at he
        exact hic (slot_inj hcnt (by omega) he).symm
      rw [if_neg hne, List.getElem_append_left (by simpa [toList_length] using hi),
        toList_getElem]

theorem pushFront_spec {r : Ring T} (hwf : WF r) (hcnt : r.count < r.buf.length) (v : T) :
    ∃ r', r.PushFront v = .ok r' ∧ WF r' ∧ r'.count = r.count + 1 ∧
      r'.buf.length = r.buf.length ∧ r'.head = (r.head + r.buf.length - 1) % r.buf.length ∧
      toList r' = v :: toList r := by
  have hc : 0 < r.buf.length := by omega
  have hh : (r.head + r.buf.length - 1) % r.buf.length < r.buf.length := Nat.mod_lt _ hc
  refine ⟨_, pushFront_eq_not_full hcnt v, ?_, rfl, by simp, rfl, ?_⟩
  · refine ⟨by simp; omega, Or.inr (by simpa using hh), ?_⟩
    simp only [List.length_set]
    rw [Nat.mod_add_mod,
      show r.head + r.buf.length - 1 + (r.count + 1) = r.head + r.count + r.buf.length
        from by omega,
      Nat.add_mod_right, hwf.tail_eq]
  · apply List.ext_getElem
    · simp [toList_length]
    intro i h1 h2
    have hilt : i < r.count + 1 := by simpa [toList_length] using h1
    rw [toList_getElem]
    simp only [List.length_set]
    rw [getD_set]
    obtain - | j := i
    · rw [if_pos ⟨by rw [Nat.add_zero, Nat.mod_eq_of_lt hh], hh⟩, List.getElem_cons_zero]
    · have hj1 : j + 1 < r.buf.length := by omega
      have hne : ¬((r.head + r.buf.length - 1) % r.buf.length =
          ((r.head + r.buf.length - 1) % r.buf.length + (j + 1)) % r.buf.length ∧
          (r.head + r.buf.length - 1) % r.buf.length < r.buf.length) := by
        rintro ⟨he, -⟩
        exact slot_base_ne hc hh (by omega) hj1 he
      rw [if_neg hne, Nat.mod_add_mod,
        show r.head + r.buf.length - 1 + (j + 1) = r.head + j + r.buf.length from by omega,
        Nat.add_mod_right, List.getElem_cons_succ, toList_getElem]

theorem pushBack_full_spec {r : Ring T} (hwf : WF r) (hc : 0 < r.buf.length)
    (hcnt : r.count = r.buf.length) (v : T) :
    ∃ r', r.PushBack v = .ok r' ∧ WF r' ∧ r'.count = r.count ∧
      r'.buf.length = r.buf.length ∧ toList r' = (toList r).drop 1 ++ [v] := by
  have htail0 : r.tail = (r.head + 0) % r.buf.length := by
    rw [hwf.tail_eq, Nat.add_zero, hcnt, Nat.add_mod_right]
  refine ⟨_, pushBack_eq_full hwf hc hcnt v, ?_, rfl, by simp, ?_⟩
  · refine ⟨by simp; omega, Or.inr (by simpa using Nat.mod_lt _ hc), ?_⟩
    simp only [List.length_set]
    rw [Nat.mod_add_mod, hwf.tail_eq, Nat.mod_add_mod, Nat.add_right_comm]
  · apply List.ext_getElem
    · simp [toList_length]
      omega
    intro i h1 h2
    have hilt : i < r.count := by simpa [toList_length] using h1
    rw [toList_getElem]
    simp only [List.length_set]
    rw [getD_set]
    by_cases hic : i = r.count - 1
    · subst hic
      have hcond : r.tail = ((r.head + 1) % r.buf.length + (r.count - 1)) % r.buf.length := by
        rw [Nat.mod_add_mod,
          show r.head + 1 + (r.count - 1) = r.head + r.count from by omega, hwf.tail_eq]
      rw [if_pos ⟨hcond, hwf.tail_lt hc⟩,
        List.getElem_append_right (by simp [toList_length] <;> omega)]
      simp [toList_length]
    · have hne : ¬(r.tail = ((r.head + 1) % r.buf.length + i) % r.buf.length ∧
          r.tail < r.buf.length) := by
        rintro ⟨he, -⟩
        rw [Nat.mod_add_mod, show r.head + 1 + i = r.head + (i + 1) from by omega,
          htail0] at he
        exact absurd (slot_inj hc (by omega) he) (by omega)
      rw [if_neg hne, Nat.mod_add_mod,
        show r.head + 1 + i = r.head + (i + 1) from by omega,
        List.getElem_append_left (by simp [toList_length] <;> omega),
        List.getElem_drop, toList_getElem, show 1 + i = i + 1 from by omega]

theorem pushFront_full_spec {r : Ring T} (hwf : WF r) (hc : 0 < r.buf.length)
    (hcnt : r.count = r.buf.length) (v : T) :
    ∃ r', r.PushFront v = .ok r' ∧ WF r' ∧ r'.count = r.count ∧
      r'.buf.length = r.buf.length ∧ toList r' = v :: (toList r).dropLast := by
  have hh : (r.head + r.buf.length - 1) % r.buf.length < r.buf.length := Nat.mod_lt _ hc
  refine ⟨_, pushFront_eq_full hc hcnt v, ?_, rfl, by simp, ?_⟩
  · refine ⟨by simp; omega, Or.inr (by simpa using hh), ?_⟩
    simp only [List.length_set]
    rw [hwf.tail_eq, slot_pred hc r.head (by omega), Nat.mod_add_mod,
      show r.head + r.buf.length - 1 + r.count = r.head + (r.count - 1) + r.buf.length
        from by omega,
      Nat.add_mod_right]
  · apply List.ext_getElem
    · simp [toList_length]
      omega
    intro i h1 h2
    have hilt : i < r.count := by simpa [toList_length] using h1
    rw [toList_getElem]
    simp only [List.length_set]
    rw [getD_set]
    obtain - | j := i
    · rw [if_pos ⟨by rw [Nat.add_zero, Nat.mod_eq_of_lt hh], hh⟩, List.getElem_cons_zero]
    · have hj1 : j + 1 < r.buf.length := by omega
      have hne : ¬((r.head + r.buf.length - 1) % r.buf.length =
          ((r.head + r.buf.length - 1) % r.buf.length + (j + 1)) % r.buf.length ∧
          (r.head + r.buf.length - 1) % r.buf.length < r.buf.length) := by
        rintro ⟨he, -⟩
        exact slot_base_ne hc hh (by omega) hj1 he
      rw [if_neg hne, Nat.mod_add_mod,
        show r.head + r.buf.length - 1 + (j + 1) = r.head + j + r.buf.length from by omega,
        Nat.add_mod_right, List.getElem_cons_succ, List.getElem_dropLast, toList_getElem]

theorem popFront_spec {r : Ring T} (hwf : WF r) (hcnt : 0 < r.count) :
    ∃ x r', r.PopFront = .ok (x, r') ∧ WF r' ∧ r'.count = r.count - 1 ∧
      r'.buf.length = r.buf.length ∧ r'.head = (r.head + 1) % r.buf.length ∧
      x = (toList r).getD 0 default ∧ toList r' = (toList r).drop 1 := by
  have hcle : r.count ≤ r.buf.length := hwf.count_le
  have hc : 0 < r.buf.length := by omega
  have hh : r.head < r.buf.length := hwf.head_lt hc
  refine ⟨_, _, popFront_eq hwf hcnt, ?_, rfl, by simp, rfl, ?_, ?_⟩
  · refine ⟨by simp; omega, Or.inr (by simpa using Nat.mod_lt _ hc), ?_⟩
    simp only [List.length_set]
    rw [Nat.mod_add_mod, show r.head + 1 + (r.count - 1) = r.head + r.count from by omega,
      hwf.tail_eq]
  · rw [toList_getD r hcnt, Nat.add_zero, Nat.mod_eq_of_lt hh]
  · apply List.ext_getElem
    · simp [toList_length]
    intro i h1 h2
    have hilt : i < r.count - 1 := by simpa [toList_length] using h1
    rw [toList_getElem]
    simp only [List.length_set]
    rw [getD_set]
    have hne : ¬(r.head = ((r.head + 1) % r.buf.length + i) % r.buf.length ∧
        r.head < r.buf.length) := by
      rintro ⟨he, -⟩
      rw [Nat.mod_add_mod, show r.head + 1 + i = r.head + (i + 1) from by omega] at he
      exact slot_base_ne hc hh (by omega) (by omega) he
    rw [if_neg hne, Nat.mod_add_mod, show r.head + 1 + i = r.head + (i + 1) from by omega,
      List.getElem_drop, toList_getElem, show 1 + i = i + 1 from by omega]

theorem popBack_spec {r : Ring T} (hwf : WF r) (hcnt : 0 < r.count) :
    ∃ x r', r.PopBack = .ok (x, r') ∧ WF r' ∧ r'.count = r.count - 1 ∧
      r'.buf.length = r.buf.length ∧ r'.head = r.head ∧
      x = (toList r).getD (r.count - 1) default ∧ toList r' = (toList r).dropLast := by
  have hcle : r.count ≤ r.buf.length := hwf.count_le
  have hc : 0 < r.buf.length := by omega
  have ht0 : (r.tail + r.buf.length - 1) % r.buf.length
      = (r.head + (r.count - 1)) % r.buf.length := by
    rw [hwf.tail_eq]
    exact slot_pred hc r.head hcnt
  refine ⟨_, _, popBack_eq hwf hcnt, ?_, rfl, by simp, rfl, ?_, ?_⟩
  · refine ⟨by simp; omega, by simpa using hwf.2.1, ?_⟩
    simp only [List.length_set]
    exact ht0
  · rw [toList_getD r (by omega), ht0]
  · apply List.ext_getElem
    · simp [toList_length]
    intro i h1 h2
    have hilt : i < r.count - 1 := by simpa [toList_length] using h1
    rw [toList_getElem]
    simp only [List.length_set]
    rw [getD_set]
    have hne : ¬((r.tail + r.buf.length - 1) % r.buf.length = (r.head + i) % r.buf.length ∧
        (r.tail + r.buf.length - 1) % r.buf.length < r.buf.length) := by
      rintro ⟨he, -⟩
      rw [ht0] at he
      exact absurd (slot_inj (by omega) (by omega) he) (by omega)
    rw [if_neg hne, List.getElem_dropLast, toList_getElem]

/-! ### Lemmas: the `Rotate` loops -/

theorem tmod_gt_neg (a : Int) {b : Int} (hb : 0 < b) : -b < a.tmod b := by
  rcases le_or_lt 0 a with h | h
  · have := Int.tmod_nonneg b h
    omega
  · have h1 : (-a).tmod b = -(a.tmod b) := by
      have e1 := Int.tdiv_add_tmod a b
      have e2 := Int.tdiv_add_tmod (-a) b
      rw [Int.neg_tdiv, mul_neg] at e2
      omega
    have h3 : (-a).tmod b < b := Int.tmod_lt_of_pos _ hb
    omega

theorem emod_tmod (a b : Int) : a % b = (a.tmod b) % b := by
  have e1 := Int.tdiv_add_tmod a b
  conv_lhs => rw [← e1]
  rw [add_comm, Int.add_mul_emod_self_left]

theorem bindOk {e a b : Type} (x : a) (f : a → Except e b) :
    (Except.ok x >>= f) = f x := rfl

theorem rotFwd_step_eq {r : Ring T} (hwf : WF r) (h0 : 0 < r.count)
    (hlt : r.count < r.buf.length) (k : Nat) :
    rotFwd r (k + 1) = rotFwd ⟨(r.buf.set r.tail (r.buf.getD r.head default)).set r.head default,
      (r.head + 1) % r.buf.length, (r.tail + 1) % r.buf.length, r.count⟩ k := by
  have hc : 0 < r.buf.length := by omega
  have hh : r.head < r.buf.length := hwf.head_lt hc
  have ht : r.tail < r.buf.length := hwf.tail_lt hc
  have e1 : r.goGet r.head = .ok (r.buf.getD r.head default) := by
    unfold goGet
    rw [List.getElem?_eq_getElem hh, List.getD_eq_getElem _ _ hh]
  have e2 : goSet r r.tail (r.buf.getD r.head default) =
      .ok { r with buf := r.buf.set r.tail (r.buf.getD r.head default) } := by
    unfold goSet
    rw [if_pos ht]
  have e3 : goSet { r with buf := r.buf.set r.tail (r.buf.getD r.head default) } r.head
      default = .ok { r with
        buf := (r.buf.set r.tail (r.buf.getD r.head default)).set r.head default } := by
    unfold goSet
    rw [if_pos (by simpa using hh)]
  rw [rotFwd, e1, bindOk, e2, bindOk, e3, bindOk]
  simp only [List.length_set]

theorem rotFwd_step_wf {r : Ring T} (hwf : WF r) (h0 : 0 < r.count)
    (hlt : r.count < r.buf.length) :
    WF (⟨(r.buf.set r.tail (r.buf.getD r.head default)).set r.head default,
      (r.head + 1) % r.buf.length, (r.tail + 1) % r.buf.length, r.count⟩ : Ring T) := by
  have hc : 0 < r.buf.length := by omega
  refine ⟨by simp; omega, Or.inr (by simpa using Nat.mod_lt _ hc), ?_⟩
  simp only [List.length_set]
  rw [hwf.tail_eq, Nat.mod_add_mod, Nat.mod_add_mod,
    show r.head + 1 + r.count = r.head + r.count + 1 from by omega]

theorem rotFwd_step_toList {r : Ring T} (hwf : WF r) (h0 : 0 < r.count)
    (hlt : r.count < r.buf.length) :
    toList (⟨(r.buf.set r.tail (r.buf.getD r.head default)).set r.head default,
      (r.head + 1) % r.buf.length, (r.tail + 1) % r.buf.length, r.count⟩ : Ring T)
      = (toList r).rotate 1 := by
  have hc : 0 < r.buf.length := by omega
  have hh : r.head < r.buf.length := hwf.head_lt hc
  have ht : r.tail < r.buf.length := hwf.tail_lt hc
  rw [List.rotate_eq_drop_append_take (by simp [toList_length]; omega)]
  apply List.ext_getElem
  · simp [toList_length]
    omega
  intro i h1 h2
  have hilt : i < r.count := by simpa [toList_length] using h1
  rw [toList_getElem]
  simp only [List.length_set]
  rw [Nat.mod_add_mod, show r.head + 1 + i = r.head + (i + 1) from by omega, getD_set]
  simp only [List.length_set]
  have hne_head : ¬(r.head = (r.head + (i + 1)) % r.buf.length ∧ r.head < r.buf.length) := by
    rintro ⟨he, -⟩
    exact slot_base_ne hc hh (by omega) (by omega) he
  rw [if_neg hne_head, getD_set]
  by_cases hic : i = r.count - 1
  · subst hic
    have hcond : r.tail = (r.head + (r.count - 1 + 1)) % r.buf.length ∧
        r.tail < r.buf.length := by
      constructor
      · rw [hwf.tail_eq]
        congr 1
        omega
      · exact ht
    rw [if_pos hcond,
      List.getElem_append_right (by simp [toList_length] <;> omega),
      List.getElem_take, toList_getElem]
    simp [toList_length, Nat.add_zero, Nat.mod_eq_of_lt hh]
  · have hne_tail : ¬(r.tail = (r.head + (i + 1)) % r.buf.length ∧
        r.tail < r.buf.length) := by
      rintro ⟨he, -⟩
      rw [hwf.tail_eq] at he
      exact absurd (slot_inj (by omega) (by omega) he) (by omega)
    rw [if_neg hne_tail,
      List.getElem_append_left (by simp [toList_length] <;> omega),
      List.getElem_drop, toList_getElem, show 1 + i = i + 1 from by omega]

theorem rotFwd_spec (k : Nat) :
    ∀ (r : Ring T), WF r → 0 < r.count → r.count < r.buf.length →
    ∃ r', rotFwd r k = .ok r' ∧ WF r' ∧ r'.count = r.count ∧
      r'.buf.length = r.buf.length ∧ toList r' = (toList r).rotate k := by
  induction k with
  | zero =>
    intro r hwf h0 hlt
    exact ⟨r, rfl, hwf, rfl, rfl, (List.rotate_zero _).symm⟩
  | succ k ih =>
    intro r hwf h0 hlt
    rw [rotFwd_step_eq hwf h0 hlt]
    obtain ⟨r', hr', hwf', hcnt', hlen', hlist'⟩ :=
      ih _ (rotFwd_step_wf hwf h0 hlt) h0 (by simpa using hlt)
    refine ⟨r', hr', hwf', by rw [hcnt'], by simpa using hlen', ?_⟩
    rw [hlist', rotFwd_step_toList hwf h0 hlt, List.rotate_rotate, Nat.add_comm]

theorem unprev {n : Nat} (hn : 0 < n) {x : Nat} (hx : x < n) :
    ((x + n - 1) % n + 1) % n = x := by
  rw [Nat.mod_add_mod, show x + n - 1 + 1 = x + n from by omega, Nat.add_mod_right,
    Nat.mod_eq_of_lt hx]

theorem rotBwd_step_eq {r : Ring T} (hwf : WF r) (h0 : 0 < r.count)
    (hlt : r.count < r.buf.length) (k : Nat) :
    rotBwd r (k + 1) = rotBwd ⟨(r.buf.set ((r.head + r.buf.length - 1) % r.buf.length)
        (r.buf.getD ((r.tail + r.buf.length - 1) % r.buf.length) default)).set
        ((r.tail + r.buf.length - 1) % r.buf.length) default,
      (r.head + r.buf.length - 1) % r.buf.length,
      (r.tail + r.buf.length - 1) % r.buf.length, r.count⟩ k := by
  have hc : 0 < r.buf.length := by omega
  have hpt : (r.tail + r.buf.length - 1) % r.buf.length < r.buf.length := Nat.mod_lt _ hc
  have hph : (r.head + r.buf.length - 1) % r.buf.length < r.buf.length := Nat.mod_lt _ hc
  have e1 : goGet (⟨r.buf, (r.head + r.buf.length - 1) % r.buf.length,
      (r.tail + r.buf.length - 1) % r.buf.length, r.count⟩ : Ring T)
      ((r.tail + r.buf.length - 1) % r.buf.length)
      = .ok (r.buf.getD ((r.tail + r.buf.length - 1) % r.buf.length) default) := by
    unfold goGet
    rw [List.getElem?_eq_getElem hpt, List.getD_eq_getElem _ _ hpt]
  have e2 : goSet (⟨r.buf, (r.head + r.buf.length - 1) % r.buf.length,
      (r.tail + r.buf.length - 1) % r.buf.length, r.count⟩ : Ring T)
      ((r.head + r.buf.length - 1) % r.buf.length)
      (r.buf.getD ((r.tail + r.buf.length - 1) % r.buf.length) default)
      = .ok ⟨r.buf.set ((r.head + r.buf.length - 1) % r.buf.length)
          (r.buf.getD ((r.tail + r.buf.length - 1) % r.buf.length) default),
        (r.head + r.buf.length - 1) % r.buf.length,
        (r.tail + r.buf.length - 1) % r.buf.length, r.count⟩ := by
    unfold goSet
    rw [if_pos hph]
  have e3 : goSet (⟨r.buf.set ((r.head + r.buf.length - 1) % r.buf.length)
          (r.buf.getD ((r.tail + r.buf.length - 1) % r.buf.length) default),
        (r.head + r.buf.length - 1) % r.buf.length,
        (r.tail + r.buf.length - 1) % r.buf.length, r.count⟩ : Ring T)
      ((r.tail + r.buf.length - 1) % r.buf.length) default
      = .ok ⟨(r.buf.set ((r.head + r.buf.length - 1) % r.buf.length)
          (r.buf.getD ((r.tail + r.buf.length - 1) % r.buf.length) default)).set
          ((r.tail + r.buf.length - 1) % r.buf.length) default,
        (r.head + r.buf.length - 1) % r.buf.length,
        (r.tail + r.buf.length - 1) % r.buf.length, r.count⟩ := by
    unfold goSet
    rw [if_pos (by simpa using hpt)]
  rw [rotBwd]
  unfold prev
  dsimp only
  rw [e1, bindOk, e2, bindOk, e3, bindOk]

theorem rotBwd_step_wf {r : Ring T} (hwf : WF r) (h0 : 0 < r.count)
    (hlt : r.count < r.buf.length) :
    WF (⟨(r.buf.set ((r.head + r.buf.length - 1) % r.buf.length)
        (r.buf.getD ((r.tail + r.buf.length - 1) % r.buf.length) default)).set
        ((r.tail + r.buf.length - 1) % r.buf.length) default,
      (r.head + r.buf.length - 1) % r.buf.length,
      (r.tail + r.buf.length - 1) % r.buf.length, r.count⟩ : Ring T) := by
  have hc : 0 < r.buf.length := by omega
  refine ⟨by simp; omega, Or.inr (by simpa using Nat.mod_lt _ hc), ?_⟩
  simp only [List.length_set]
  rw [hwf.tail_eq, slot_pred hc r.head h0, Nat.mod_add_mod,
    show r.head + r.buf.length - 1 + r.count = r.head + (r.count - 1) + r.buf.length
      from by omega,
    Nat.add_mod_right]

theorem rotBwd_step_toList {r : Ring T} (hwf : WF r) (h0 : 0 < r.count)
    (hlt : r.count < r.buf.length) :
    toList (⟨(r.buf.set ((r.head + r.buf.length - 1) % r.buf.length)
        (r.buf.getD ((r.tail + r.buf.length - 1) % r.buf.length) default)).set
        ((r.tail + r.buf.length - 1) % r.buf.length) default,
      (r.head + r.buf.length - 1) % r.buf.length,
      (r.tail + r.buf.length - 1) % r.buf.length, r.count⟩ : Ring T)
      = (toList r).rotate (r.count - 1) := by
  have hc : 0 < r.buf.length := by omega
  have hh : r.head < r.buf.length := hwf.head_lt hc
  have ht : r.tail < r.buf.length := hwf.tail_lt hc
  have hph : (r.head + r.buf.length - 1) % r.buf.length < r.buf.length := Nat.mod_lt _ hc
  have ht0 : (r.tail + r.buf.length - 1) % r.buf.length
      = (r.head + (r.count - 1)) % r.buf.length := by
    rw [hwf.tail_eq]
    exact slot_pred hc r.head h0
  have hTH : (r.tail + r.buf.length - 1) % r.buf.length
      ≠ (r.head + r.buf.length - 1) % r.buf.length := by
    intro he
    have e1 : r.tail = r.head := by
      rw [← unprev hc ht, ← unprev hc hh, he]
    have e2 : (r.head + r.count) % r.buf.length = (r.head + 0) % r.buf.length := by
      rw [Nat.add_zero, Nat.mod_eq_of_lt hh, ← hwf.tail_eq]
      exact e1
    exact absurd (slot_inj hlt hc e2) (by omega)
  rw [List.rotate_eq_drop_append_take (by simp [toList_length] <;> omega)]
  apply List.ext_getElem
  · simp [toList_length] <;> omega
  intro i h1 h2
  have hilt : i < r.count := by simpa [toList_length] using h1
  rw [toList_getElem]
  simp only [List.length_set]
  rw [getD_set]
  simp only [List.length_set]
  obtain - | j := i
  · rw [Nat.add_zero, Nat.mod_eq_of_lt hph,
      if_neg (by rintro ⟨he, -⟩; exact hTH he), getD_set, if_pos ⟨rfl, hph⟩, ht0,
      List.getElem_append_left (by simp [toList_length] <;> omega), List.getElem_drop,
      toList_getElem, Nat.add_zero]
  · have hj : j < r.count - 1 := by omega
    rw [Nat.mod_add_mod,
      show r.head + r.buf.length - 1 + (j + 1) = r.head + j + r.buf.length from by omega,
      Nat.add_mod_right]
    have hne1 : ¬((r.tail + r.buf.length - 1) % r.buf.length = (r.head + j) % r.buf.length ∧
        (r.tail + r.buf.length - 1) % r.buf.length < r.buf.length) := by
      rintro ⟨he, -⟩
      rw [ht0] at he
      exact absurd (slot_inj (by omega) (by omega) he) (by omega)
    have hne2 : ¬((r.head + r.buf.length - 1) % r.buf.length = (r.head + j) % r.buf.length ∧
        (r.head + r.buf.length - 1) % r.buf.length < r.buf.length) := by
      rintro ⟨he, -⟩
      rw [show r.head + r.buf.length - 1 = r.head + (r.buf.length - 1) from by omega] at he
      exact absurd (slot_inj (by omega) (by omega) he) (by omega)
    rw [if_neg hne1, getD_set, if_neg hne2,
      List.getElem_append_right (by simp [toList_length] <;> omega)]
    simp only [List.length_drop, toList_length,
      show r.count - (r.count - 1) = 1 from by omega, Nat.add_sub_cancel]
    rw [List.getElem_take, toList_getElem]

theorem rotBwd_spec (k : Nat) :
    ∀ (r : Ring T), WF r → 0 < r.count → r.count < r.buf.length →
    ∃ r', rotBwd r k = .ok r' ∧ WF r' ∧ r'.count = r.count ∧
      r'.buf.length = r.buf.length ∧ toList r' = (toList r).rotate (k * (r.count - 1)) := by
  induction k with
  | zero =>
    intro r hwf h0 hlt
    exact ⟨r, rfl, hwf, rfl, rfl, by simp⟩
  | succ k ih =>
    intro r hwf h0 hlt
    rw [rotBwd_step_eq hwf h0 hlt]
    obtain ⟨r', hr', hwf', hcnt', hlen', hlist'⟩ :=
      ih _ (rotBwd_step_wf hwf h0 hlt) h0 (by simpa using hlt)
    refine ⟨r', hr', hwf', by rw [hcnt'], by simpa using hlen', ?_⟩
    rw [hlist', rotBwd_step_toList hwf h0 hlt, List.rotate_rotate]
    congr 1
    ring

theorem nat_mod_eq_of_int_dvd {a b n : Nat} (h : (n : Int) ∣ ((b : Int) - (a : Int))) :
    a % n = b % n := by
  have h1 : (a : Int) % (n : Int) = (b : Int) % (n : Int) := Int.modEq_iff_dvd.mpr h
  have h2 : ((a % n : Nat) : Int) = ((b % n : Nat) : Int) := by
    rw [Int.natCast_mod, Int.natCast_mod, h1]
  exact_mod_cast h2

theorem rotate_spec {r : Ring T} (hwf : WF r) (n : Int) :
    ∃ r', r.Rotate n = .ok r' ∧ WF r' ∧ r'.count = r.count ∧ r'.buf.length = r.buf.length ∧
      toList r' = (toList r).rotate (n % (r.count : Int)).toNat := by
  by_cases hle : r.count ≤ 1
  · have hrot : r.Rotate n = .ok r := by
      unfold Rotate Len
      rw [if_pos hle]
    refine ⟨r, hrot, hwf, rfl, rfl, ?_⟩
    rcases Nat.le_one_iff_eq_zero_or_eq_one.mp hle with h0 | h1
    · have hnil : toList r = [] := List.eq_nil_of_length_eq_zero (by simp [toList_length, h0])
      rw [hnil]
      simp
    · rw [h1]
      simp [Int.emod_one]
  · have h2 : 2 ≤ r.count := by omega
    have hLpos : 0 < r.buf.length := by have := hwf.count_le; omega
    have hcpos : (0 : Int) < (r.count : Int) := by exact_mod_cast (by omega : 0 < r.count)
    by_cases hz : Int.tmod n (r.count : Int) = 0
    · have hrot : r.Rotate n = .ok r := by
        unfold Rotate Len
        rw [if_neg (by omega)]
        dsimp only
        rw [if_pos hz]
      refine ⟨r, hrot, hwf, rfl, rfl, ?_⟩
      have he : (n % (r.count : Int)).toNat = 0 := by
        rw [emod_tmod n (r.count : Int), hz]
        simp
      rw [he, List.rotate_zero]
    · have hepos : (0 : Int) ≤ n % (r.count : Int) := Int.emod_nonneg n (by omega)
      have heltI : n % (r.count : Int) < (r.count : Int) := Int.emod_lt_of_pos n hcpos
      have heltN : (n % (r.count : Int)).toNat < r.count := by omega
      have hecast : ((n % (r.count : Int)).toNat : Int) = n % (r.count : Int) :=
        Int.toNat_of_nonneg hepos
      by_cases hht : r.head = r.tail
      · -- full ring: a pure pointer move
        have hme : (r.head + r.count) % r.buf.length = (r.head + 0) % r.buf.length := by
          rw [← hwf.tail_eq, ← hht, Nat.add_zero, Nat.mod_eq_of_lt (hwf.head_lt hLpos)]
        have hdvd : r.buf.length ∣ r.count :=
          (Nat.modEq_zero_iff_dvd).mp (Nat.ModEq.add_left_cancel' r.head hme)
        have hcl : r.count = r.buf.length :=
          Nat.le_antisymm hwf.count_le (Nat.le_of_dvd (by omega) hdvd)
        have hrot : r.Rotate n = .ok ⟨r.buf,
            (((r.head : Int) + Int.tmod n (r.count : Int) + (r.buf.length : Int)).toNat)
              % r.buf.length,
            (((r.head : Int) + Int.tmod n (r.count : Int) + (r.buf.length : Int)).toNat)
              % r.buf.length, r.count⟩ := by
          unfold Rotate Len
          rw [if_neg (by omega)]
          dsimp only
          rw [if_neg hz, if_pos hht]
        have hclI : (r.count : Int) = (r.buf.length : Int) := by exact_mod_cast hcl
        have htge := tmod_gt_neg n hcpos
        have htlt := Int.tmod_lt_of_pos n hcpos
        have hA : (0 : Int) ≤ (r.head : Int) + Int.tmod n (r.count : Int) + r.buf.length := by
          omega
        have hkey : (((r.head : Int) + Int.tmod n (r.count : Int)
              + (r.buf.length : Int)).toNat) % r.buf.length
            = (r.head + (n % (r.count : Int)).toNat) % r.buf.length := by
          apply Nat.cast_inj (R := Int) |>.mp
          rw [Int.natCast_mod, Int.natCast_mod, Int.toNat_of_nonneg hA]
          push_cast [hecast]
          rw [← hclI]
          have s1 : ((r.head : Int) + Int.tmod n (r.count : Int) + (r.count : Int))
              % (r.count : Int)
              = ((r.head : Int) + Int.tmod n (r.count : Int)) % (r.count : Int) := by
            rw [show (r.head : Int) + Int.tmod n (r.count : Int) + (r.count : Int)
                = ((r.head : Int) + Int.tmod n (r.count : Int)) + (r.count : Int) * 1
              from by ring, Int.add_mul_emod_self_left]
          have s2 : ((r.head : Int) + n % (r.count : Int)) % (r.count : Int)
              = ((r.head : Int) + Int.tmod n (r.count : Int)) % (r.count : Int) := by
            rw [emod_tmod n (r.count : Int)]
            exact Int.ModEq.add_left _ (Int.emod_emod_of_dvd _ (dvd_refl _))
          rw [s1, s2]
        refine ⟨_, hrot, ?_, rfl, rfl, ?_⟩
        · refine ⟨hwf.count_le, Or.inr (Nat.mod_lt _ hLpos), ?_⟩
          rw [Nat.mod_add_mod, hcl, Nat.add_mod_right]
        · rw [List.rotate_eq_drop_append_take
            (show (n % (r.count : Int)).toNat ≤ (toList r).length by
              simp [toList_length]; omega)]
          apply List.ext_getElem
          · simp [toList_length] <;> omega
          intro i h1' h2'
          have hilt : i < r.count := by simpa [toList_length] using h1'
          rw [toList_getElem]
          dsimp only
          rw [hkey, Nat.mod_add_mod, Nat.add_assoc]
          by_cases hcase : i < r.count - (n % (r.count : Int)).toNat
          · rw [List.getElem_append_left (by simp [toList_length] <;> omega),
              List.getElem_drop, toList_getElem]
          · rw [List.getElem_append_right (by simp [toList_length] <;> omega),
              List.getElem_take]
            simp only [List.length_drop, toList_length]
            rw [toList_getElem,
              show r.head + ((n % (r.count : Int)).toNat + i)
                = (r.head + (i - (r.count - (n % (r.count : Int)).toNat)))
                  + r.buf.length from by omega,
              Nat.add_mod_right]
      · -- partially filled ring: element-moving loops
        have hclt : r.count < r.buf.length := by
          rcases Nat.lt_or_ge r.count r.buf.length with h | h
          · exact h
          · exfalso
            apply hht
            have hcl : r.count = r.buf.length := by
              have := hwf.count_le
              omega
            rw [hwf.tail_eq, hcl, Nat.add_mod_right, Nat.mod_eq_of_lt (hwf.head_lt hLpos)]
        by_cases hneg : Int.tmod n (r.count : Int) < 0
        · have hrot : r.Rotate n = rotBwd r (Int.tmod n (r.count : Int)).natAbs := by
            unfold Rotate Len
            rw [if_neg (by omega)]
            dsimp only
            rw [if_neg hz, if_neg hht, if_pos hneg]
          obtain ⟨r', hr', hwf', hcnt', hlen', hlist'⟩ :=
            rotBwd_spec (Int.tmod n (r.count : Int)).natAbs r hwf (by omega) hclt
          refine ⟨r', by rw [hrot, hr'], hwf', hcnt', hlen', ?_⟩
          rw [hlist', ← List.rotate_mod, toList_length, ← List.rotate_mod _
            ((n % (r.count : Int)).toNat), toList_length]
          congr 1
          have htge := tmod_gt_neg n hcpos
          have hkN : (Int.tmod n (r.count : Int)).natAbs < r.count := by omega
          have hkpos : 0 < (Int.tmod n (r.count : Int)).natAbs := by omega
          have heq2 : (n % (r.count : Int)).toNat
              = r.count - (Int.tmod n (r.count : Int)).natAbs := by
            have : n % (r.count : Int)
                = Int.tmod n (r.count : Int) + (r.count : Int) := by
              have e5 : (Int.tmod n (r.count : Int) + (r.count : Int)) % (r.count : Int)
                  = Int.tmod n (r.count : Int) % (r.count : Int) := by
                rw [show Int.tmod n (r.count : Int) + (r.count : Int)
                    = Int.tmod n (r.count : Int) + (r.count : Int) * 1 from by ring,
                  Int.add_mul_emod_self_left]
              rw [emod_tmod n (r.count : Int), ← e5]
              exact Int.emod_eq_of_lt (by omega) (by omega)
            omega
          rw [heq2]
          apply nat_mod_eq_of_int_dvd
          refine ⟨1 - ((Int.tmod n (r.count : Int)).natAbs : Int), ?_⟩
          push_cast [Nat.cast_sub (le_of_lt hkN),
            Nat.cast_sub (by omega : 1 ≤ r.count)]
          ring
        · have hpos : 0 < Int.tmod n (r.count : Int) := by omega
          have hrot : r.Rotate n = rotFwd r (Int.tmod n (r.count : Int)).natAbs := by
            unfold Rotate Len
            rw [if_neg (by omega)]
            dsimp only
            rw [if_neg hz, if_neg hht, if_neg hneg]
          obtain ⟨r', hr', hwf', hcnt', hlen', hlist'⟩ :=
            rotFwd_spec (Int.tmod n (r.count : Int)).natAbs r hwf (by omega) hclt
          refine ⟨r', by rw [hrot, hr'], hwf', hcnt', hlen', ?_⟩
          rw [hlist']
          congr 1
          have : n % (r.count : Int) = Int.tmod n (r.count : Int) := by
            rw [emod_tmod n (r.count : Int)]
            exact Int.emod_eq_of_lt (by omega) (Int.tmod_lt_of_pos n hcpos)
          omega

theorem getD_rotate (l : List T) (e a : Nat) (ha : a < l.length) :
    (l.rotate e).getD a default = l.getD ((a + e) % l.length) default := by
  rw [List.getD_eq_getElem _ _ (by simpa [List.length_rotate] using ha),
    List.getD_eq_getElem _ _ (Nat.mod_lt _ (by omega)), List.getElem_rotate]

/-! ### Lemmas: the `Insert`/`Remove` shift loops -/

theorem swapAt_comm (l : List T) (i j : Nat) : swapAt l i j = swapAt l j i := by
  by_cases h : i = j
  · subst h
    rfl
  · unfold swapAt
    rw [List.set_comm _ _ _ h]

theorem removeShiftB_eq_insertShiftF (k : Nat) :
    ∀ (r : Ring T) (p : Nat), removeShiftB r p k = insertShiftF r p k := by
  induction k with
  | zero => intro r p; rfl
  | succ k ih =>
    intro r p
    rw [removeShiftB, insertShiftF]
    exact ih _ _

theorem removeShiftF_eq_insertShiftB (k : Nat) :
    ∀ (r : Ring T) (p : Nat), removeShiftF r p k = insertShiftB r p k := by
  induction k with
  | zero => intro r p; rfl
  | succ k ih =>
    intro r p
    rw [removeShiftF, insertShiftB, swapAt_comm]
    exact ih _ _

theorem insertShiftF_fields (k : Nat) :
    ∀ (r : Ring T) (front : Nat),
      (insertShiftF r front k).head = r.head ∧ (insertShiftF r front k).tail = r.tail ∧
      (insertShiftF r front k).count = r.count ∧
      (insertShiftF r front k).buf.length = r.buf.length := by
  induction k with
  | zero => intro r front; exact ⟨rfl, rfl, rfl, rfl⟩
  | succ k ih =>
    intro r front
    rw [insertShiftF]
    obtain ⟨h1, h2, h3, h4⟩ := ih { r with buf := swapAt r.buf front ((front + 1) % r.buf.length) } ((front + 1) % r.buf.length)
    exact ⟨h1, h2, h3, by rw [h4]; exact length_swapAt _ _ _⟩

theorem insertShiftB_fields (k : Nat) :
    ∀ (r : Ring T) (back : Nat),
      (insertShiftB r back k).head = r.head ∧ (insertShiftB r back k).tail = r.tail ∧
      (insertShiftB r back k).count = r.count ∧
      (insertShiftB r back k).buf.length = r.buf.length := by
  induction k with
  | zero => intro r back; exact ⟨rfl, rfl, rfl, rfl⟩
  | succ k ih =>
    intro r back
    rw [insertShiftB]
    obtain ⟨h1, h2, h3, h4⟩ := ih { r with buf := swapAt r.buf back ((back + r.buf.length - 1) % r.buf.length) } ((back + r.buf.length - 1) % r.buf.length)
    exact ⟨h1, h2, h3, by rw [h4]; exact length_swapAt _ _ _⟩

theorem wf_swap {r : Ring T} (hwf : WF r) (p q : Nat) :
    WF { r with buf := swapAt r.buf p q } := by
  refine ⟨?_, ?_, ?_⟩
  · rw [show ({ r with buf := swapAt r.buf p q } : Ring T).buf.length = r.buf.length
      from length_swapAt _ _ _]
    exact hwf.count_le
  · rw [show ({ r with buf := swapAt r.buf p q } : Ring T).buf.length = r.buf.length
      from length_swapAt _ _ _]
    exact hwf.2.1
  · rw [show ({ r with buf := swapAt r.buf p q } : Ring T).buf.length = r.buf.length
      from length_swapAt _ _ _]
    exact hwf.tail_eq

theorem toList_swap_getD {r : Ring T} (hwf : WF r) {a b : Nat} (ha : a < r.count)
    (hb : b < r.count) (j : Nat) (hj : j < r.count) :
    (toList { r with buf := (swapAt r.buf ((r.head + a) % r.buf.length)
        ((r.head + b) % r.buf.length)) }).getD j default =
      if j = b then (toList r).getD a default
      else if j = a then (toList r).getD b default
      else (toList r).getD j default := by
  have hcle : r.count ≤ r.buf.length := hwf.count_le
  have hc : 0 < r.buf.length := by omega
  rw [toList_getD _ (show j < ({ r with buf := swapAt r.buf _ _ } : Ring T).count from hj)]
  dsimp only
  rw [show (swapAt r.buf ((r.head + a) % r.buf.length)
      ((r.head + b) % r.buf.length)).length = r.buf.length from length_swapAt _ _ _]
  rw [getD_swapAt _ _ _ _ (Nat.mod_lt _ hc) (Nat.mod_lt _ hc)]
  by_cases hjb : j = b
  · subst hjb
    rw [if_pos rfl, if_pos rfl, toList_getD r ha]
  · rw [if_neg hjb, if_neg (fun he => hjb (slot_inj (by omega) (by omega) he.symm))]
    by_cases hja : j = a
    · subst hja
      rw [if_pos rfl, if_pos rfl, toList_getD r hb]
    · rw [if_neg hja, if_neg (fun he => hja (slot_inj (by omega) (by omega) he.symm)),
        toList_getD r hj]

theorem insertShiftF_spec (k : Nat) :
    ∀ (r : Ring T) (m front : Nat), WF r → m + k < r.count →
      front = (r.head + m) % r.buf.length →
      ∀ i, i < r.count →
        (toList (insertShiftF r front k)).getD i default =
          if i < m ∨ m + k < i then (toList r).getD i default
          else if i = m + k then (toList r).getD m default
          else (toList r).getD (i + 1) default := by
  induction k with
  | zero =>
    intro r m front hwf hmk hfront i hi
    simp only [insertShiftF]
    split_ifs with h1 h2
    · rfl
    · rw [show i = m from by omega]
    · omega
  | succ k ih =>
    intro r m front hwf hmk hfront i hi
    subst hfront
    rw [insertShiftF]
    rw [slot_succ]
    have hwf' : WF { r with buf := (swapAt r.buf ((r.head + m) % r.buf.length)
        ((r.head + (m + 1)) % r.buf.length)) } := wf_swap hwf _ _
    have IH := ih _ (m + 1) ((r.head + (m + 1)) % r.buf.length) hwf'
      (show m + 1 + k < r.count from by omega)
      (by dsimp only
          rw [show (swapAt r.buf ((r.head + m) % r.buf.length)
            ((r.head + (m + 1)) % r.buf.length)).length = r.buf.length
            from length_swapAt _ _ _])
      i (show i < _ from hi)
    rw [IH]
    have hswap := fun (j : Nat) (hj : j < r.count) =>
      toList_swap_getD hwf (show m < r.count from by omega)
        (show m + 1 < r.count from by omega) j hj
    by_cases hA : i < m
    · rw [if_pos (Or.inl (show i < m + 1 from by omega)), hswap i hi,
        if_neg (show ¬ i = m + 1 from by omega), if_neg (show ¬ i = m from by omega),
        if_pos (Or.inl hA)]
    · by_cases hB : i = m
      · subst hB
        rw [if_pos (Or.inl (show i < i + 1 from by omega)), hswap i hi,
          if_neg (show ¬ i = i + 1 from by omega), if_pos rfl,
          if_neg (show ¬ (i < i ∨ i + (k + 1) < i) from by omega),
          if_neg (show ¬ i = i + (k + 1) from by omega)]
      · by_cases hC : i < m + 1 + k
        · rw [if_neg (show ¬ (i < m + 1 ∨ m + 1 + k < i) from by omega),
            if_neg (show ¬ i = m + 1 + k from by omega), hswap (i + 1) (by omega),
            if_neg (show ¬ i + 1 = m + 1 from by omega),
            if_neg (show ¬ i + 1 = m from by omega),
            if_neg (show ¬ (i < m ∨ m + (k + 1) < i) from by omega),
            if_neg (show ¬ i = m + (k + 1) from by omega)]
        · by_cases hD : i = m + 1 + k
          · rw [if_neg (show ¬ (i < m + 1 ∨ m + 1 + k < i) from by omega),
              if_pos hD, hswap (m + 1) (by omega), if_pos rfl,
              if_neg (show ¬ (i < m ∨ m + (k + 1) < i) from by omega),
              if_pos (show i = m + (k + 1) from by omega)]
          · rw [if_pos (Or.inr (show m + 1 + k < i from by omega)), hswap i hi,
              if_neg (show ¬ i = m + 1 from by omega),
              if_neg (show ¬ i = m from by omega),
              if_pos (Or.inr (show m + (k + 1) < i from by omega))]

theorem insertShiftB_spec (k : Nat) :
    ∀ (r : Ring T) (m back : Nat), WF r → m < r.count → k ≤ m →
      back = (r.head + m) % r.buf.length →
      ∀ i, i < r.count →
        (toList (insertShiftB r back k)).getD i default =
          if i < m - k ∨ m < i then (toList r).getD i default
          else if i = m - k then (toList r).getD m default
          else (toList r).getD (i - 1) default := by
  induction k with
  | zero =>
    intro r m back hwf hm hk hback i hi
    simp only [insertShiftB]
    split_ifs with h1 h2
    · rfl
    · rw [show i = m from by omega]
    · omega
  | succ k ih =>
    intro r m back hwf hm hk hback i hi
    have hc : 0 < r.buf.length := by have := hwf.count_le; omega
    subst hback
    rw [insertShiftB]
    rw [slot_pred hc r.head (show 1 ≤ m from by omega)]
    have hwf' : WF { r with buf := (swapAt r.buf ((r.head + m) % r.buf.length)
        ((r.head + (m - 1)) % r.buf.length)) } := wf_swap hwf _ _
    have IH := ih _ (m - 1) ((r.head + (m - 1)) % r.buf.length) hwf'
      (show m - 1 < r.count from by omega) (show k ≤ m - 1 from by omega)
      (by dsimp only
          rw [show (swapAt r.buf ((r.head + m) % r.buf.length)
            ((r.head + (m - 1)) % r.buf.length)).length = r.buf.length
            from length_swapAt _ _ _])
      i (show i < _ from hi)
    rw [IH]
    have hswap := fun (j : Nat) (hj : j < r.count) =>
      toList_swap_getD hwf hm (show m - 1 < r.count from by omega) j hj
    by_cases hA : i < m - (k + 1)
    · rw [if_pos (Or.inl (show i < m - 1 - k from by omega)), hswap i hi,
        if_neg (show ¬ i = m - 1 from by omega), if_neg (show ¬ i = m from by omega),
        if_pos (Or.inl hA)]
    · by_cases hB : i = m - (k + 1)
      · rw [if_neg (show ¬ (i < m - 1 - k ∨ m - 1 < i) from by omega),
          if_pos (show i = m - 1 - k from by omega), hswap (m - 1) (by omega),
          if_pos rfl,
          if_neg (show ¬ (i < m - (k + 1) ∨ m < i) from by omega), if_pos hB]
      · by_cases hC : i < m
        · rw [if_neg (show ¬ (i < m - 1 - k ∨ m - 1 < i) from by omega),
            if_neg (show ¬ i = m - 1 - k from by omega), hswap (i - 1) (by omega),
            if_neg (show ¬ i - 1 = m - 1 from by omega),
            if_neg (show ¬ i - 1 = m from by omega),
            if_neg (show ¬ (i < m - (k + 1) ∨ m < i) from by omega),
            if_neg (show ¬ i = m - (k + 1) from by omega)]
        · by_cases hD : i = m
          · subst hD
            rw [if_pos (Or.inr (show i - 1 < i from by omega)), hswap i hi,
              if_neg (show ¬ i = i - 1 from by omega), if_pos rfl,
              if_neg (show ¬ (i < i - (k + 1) ∨ i < i) from by omega),
              if_neg (show ¬ i = i - (k + 1) from by omega)]
          · rw [if_pos (Or.inr (show m - 1 < i from by omega)), hswap i hi,
              if_neg (show ¬ i = m - 1 from by omega),
              if_neg (show ¬ i = m from by omega),
              if_pos (Or.inr (show m < i from by omega))]

theorem wf_of_fields {r s : Ring T} (hwf : WF r) (h1 : s.head = r.head)
    (h2 : s.tail = r.tail) (h3 : s.count = r.count) (h4 : s.buf.length = r.buf.length) :
    WF s := by
  refine ⟨?_, ?_, ?_⟩
  · rw [h3, h4]
    exact hwf.count_le
  · rw [h1, h4]
    exact hwf.2.1
  · rw [h1, h2, h3, h4]
    exact hwf.tail_eq

theorem ext_getD {l1 l2 : List T} (hlen : l1.length = l2.length)
    (h : ∀ i, i < l1.length → l1.getD i default = l2.getD i default) : l1 = l2 := by
  apply List.ext_getElem hlen
  intro i h1 h2
  rw [← List.getD_eq_getElem l1 default h1, ← List.getD_eq_getElem l2 default h2]
  exact h i h1

theorem getD_drop (l : List T) (n i : Nat) :
    (l.drop n).getD i default = l.getD (n + i) default := by
  rw [List.getD_eq_getElem?_getD, List.getElem?_drop, ← List.getD_eq_getElem?_getD]

theorem getD_dropLast (l : List T) (i : Nat) (h : i < l.length - 1) :
    l.dropLast.getD i default = l.getD i default := by
  rw [List.getD_eq_getElem l.dropLast default (by simpa using h),
    List.getD_eq_getElem l default (by omega), List.getElem_dropLast]

theorem getD_append_lt (l1 l2 : List T) (i : Nat) (h : i < l1.length) :
    (l1 ++ l2).getD i default = l1.getD i default := by
  rw [List.getD_eq_getElem (l1 ++ l2) default (by simp; omega),
    List.getD_eq_getElem l1 default h, List.getElem_append_left h]

theorem getD_append_self (l : List T) (v : T) :
    (l ++ [v]).getD l.length default = v := by
  rw [List.getD_eq_getElem (l ++ [v]) default (by simp),
    List.getElem_append_right (by omega)]
  simp

theorem getD_insertList (l : List T) (a : Nat) (ha : a ≤ l.length) (v : T) (i : Nat) :
    (l.take a ++ v :: l.drop a).getD i default =
      if i < a then l.getD i default
      else if i = a then v
      else l.getD (i - 1) default := by
  by_cases h1 : i < a
  · rw [if_pos h1, getD_append_lt _ _ _ (by simp; omega),
      List.getD_eq_getElem?_getD, List.getElem?_take, if_pos h1,
      ← List.getD_eq_getElem?_getD]
  · rw [if_neg h1]
    by_cases h2 : i = a
    · subst h2
      rw [if_pos rfl, List.getD_eq_getElem?_getD,
        List.getElem?_append_right (by simp [Nat.min_eq_left ha])]
      simp [Nat.min_eq_left ha]
    · rw [if_neg h2, List.getD_eq_getElem?_getD,
        List.getElem?_append_right (by simp; omega)]
      simp only [List.length_take, Nat.min_eq_left ha]
      rw [show i - a = (i - a - 1) + 1 from by omega, List.getElem?_cons_succ,
        List.getElem?_drop, ← List.getD_eq_getElem?_getD]
      congr 1
      omega

theorem getD_removeList (l : List T) (a : Nat) (ha : a < l.length) (i : Nat) :
    (l.take a ++ l.drop (a + 1)).getD i default =
      if i < a then l.getD i default else l.getD (i + 1) default := by
  by_cases h1 : i < a
  · rw [if_pos h1, getD_append_lt _ _ _ (by simp; omega),
      List.getD_eq_getElem?_getD, List.getElem?_take, if_pos h1,
      ← List.getD_eq_getElem?_getD]
  · rw [if_neg h1, List.getD_eq_getElem?_getD,
      List.getElem?_append_right (by simp; omega)]
    simp only [List.length_take, Nat.min_eq_left (le_of_lt ha)]
    rw [List.getElem?_drop, ← List.getD_eq_getElem?_getD]
    congr 1
    omega

theorem insert_spec {r : Ring T} (hwf : WF r) {pos : Int} (h0 : 0 ≤ pos)
    (hle : pos ≤ (r.count : Int)) (hnf : r.count < r.buf.length) (v : T) :
    ∃ r', r.Insert pos v = .ok r' ∧ WF r' ∧ r'.count = r.count + 1 ∧
      r'.buf.length = r.buf.length ∧
      toList r' = (toList r).take pos.toNat ++ v :: (toList r).drop pos.toNat := by
  have hc : 0 < r.buf.length := by omega
  have haN : pos.toNat ≤ r.count := by omega
  have hnotfull : ¬ r.Full = true := by
    simp [Full]
    omega
  have hRlen : pos.toNat ≤ (toList r).length := by rw [toList_length]; omega
  by_cases hA : pos.toNat * 2 < r.count
  · -- front half: PushFront then bubble the new front element to position `at`
    obtain ⟨r1, he1, hwf1, hcnt1, hlen1, hh1, hlist1⟩ := pushFront_spec hwf hnf v
    have hfields := insertShiftF_fields pos.toNat r1 r1.head
    refine ⟨insertShiftF r1 r1.head pos.toNat, ?_, ?_, ?_, ?_, ?_⟩
    · unfold Insert
      rw [if_neg (by omega), if_neg hnotfull]
      dsimp only
      rw [if_pos hA, he1, bindOk]
      rfl
    · exact wf_of_fields hwf1 hfields.1 hfields.2.1 hfields.2.2.1 hfields.2.2.2
    · rw [hfields.2.2.1, hcnt1]
    · rw [hfields.2.2.2, hlen1]
    · have hspec := insertShiftF_spec pos.toNat r1 0 r1.head hwf1
        (show 0 + pos.toNat < r1.count from by omega)
        (by rw [Nat.add_zero, Nat.mod_eq_of_lt (hwf1.head_lt (by omega))])
      apply ext_getD
      · simp only [toList_length, hfields.2.2.1, hcnt1, List.length_append,
          List.length_take, List.length_cons, List.length_drop]
        omega
      intro i hi
      have hilt : i < r.count + 1 := by
        rw [toList_length, hfields.2.2.1, hcnt1] at hi
        exact hi
      rw [hspec i (by omega), hlist1, getD_insertList (toList r) pos.toNat hRlen v i]
      simp only [Nat.zero_add]
      by_cases hia : i < pos.toNat
      · rw [if_neg (by omega), if_neg (by omega), List.getD_cons_succ, if_pos hia]
      · by_cases hia2 : i = pos.toNat
        · rw [if_neg (by omega), if_pos hia2, List.getD_cons_zero, if_neg (by omega),
            if_pos hia2]
        · have hlhs : ((v :: toList r).getD i default) = (toList r).getD (i - 1) default := by
            rw [show i = (i - 1) + 1 from by omega, List.getD_cons_succ,
              Nat.add_sub_cancel]
          rw [if_pos (Or.inr (show pos.toNat < i from by omega)), hlhs,
            if_neg hia, if_neg hia2]
  · -- back half: PushBack then bubble the new back element down to position `at`
    obtain ⟨r1, he1, hwf1, hcnt1, hlen1, hh1, hlist1⟩ := pushBack_spec hwf hnf v
    have hfields := insertShiftB_fields (r.count - pos.toNat) r1 (r1.prev r1.tail)
    have hback : r1.prev r1.tail = (r1.head + r.count) % r1.buf.length := by
      unfold prev
      rw [hwf1.tail_eq, slot_pred (by omega) r1.head (show 1 ≤ r1.count from by omega),
        hcnt1, Nat.add_sub_cancel]
    refine ⟨insertShiftB r1 (r1.prev r1.tail) (r.count - pos.toNat), ?_, ?_, ?_, ?_, ?_⟩
    · unfold Insert
      rw [if_neg (by omega), if_neg hnotfull]
      dsimp only
      rw [if_neg hA, he1, bindOk]
      rfl
    · exact wf_of_fields hwf1 hfields.1 hfields.2.1 hfields.2.2.1 hfields.2.2.2
    · rw [hfields.2.2.1, hcnt1]
    · rw [hfields.2.2.2, hlen1]
    · have hspec := insertShiftB_spec (r.count - pos.toNat) r1 r.count (r1.prev r1.tail)
        hwf1 (show r.count < r1.count from by omega)
        (show r.count - pos.toNat ≤ r.count from by omega) hback
      rw [show r.count - (r.count - pos.toNat) = pos.toNat from by omega] at hspec
      apply ext_getD
      · simp only [toList_length, hfields.2.2.1, hcnt1, List.length_append,
          List.length_take, List.length_cons, List.length_drop]
        omega
      intro i hi
      have hilt : i < r.count + 1 := by
        rw [toList_length, hfields.2.2.1, hcnt1] at hi
        exact hi
      rw [hspec i (by omega), hlist1, getD_insertList (toList r) pos.toNat hRlen v i]
      by_cases hia : i < pos.toNat
      · rw [if_pos (Or.inl hia),
          getD_append_lt (toList r) [v] i (by rw [toList_length]; omega), if_pos hia]
      · by_cases hia2 : i = pos.toNat
        · rw [if_neg (by omega), if_pos hia2,
            show r.count = (toList r).length from (toList_length r).symm,
            getD_append_self, if_neg (by omega), if_pos hia2]
        · rw [if_neg (by omega), if_neg (by omega),
            getD_append_lt (toList r) [v] (i - 1) (by rw [toList_length]; omega),
            if_neg hia, if_neg hia2]

theorem remove_spec {r : Ring T} (hwf : WF r) {pos : Int} (h0 : 0 ≤ pos)
    (hlt : pos < (r.count : Int)) :
    ∃ r', r.Remove pos = .ok ((toList r).getD pos.toNat default, r') ∧ WF r' ∧
      r'.count = r.count - 1 ∧ r'.buf.length = r.buf.length ∧
      toList r' = (toList r).take pos.toNat ++ (toList r).drop (pos.toNat + 1) := by
  have hcle : r.count ≤ r.buf.length := hwf.count_le
  have hc : 0 < r.buf.length := by omega
  have haN : pos.toNat < r.count := by omega
  have hRlt : pos.toNat < (toList r).length := by rw [toList_length]; omega
  by_cases hA : pos.toNat * 2 < r.count
  · -- front half: bubble the element back to the front, then PopFront
    have heq : removeShiftF r ((r.head + pos.toNat) % r.buf.length) pos.toNat
        = insertShiftB r ((r.head + pos.toNat) % r.buf.length) pos.toNat :=
      removeShiftF_eq_insertShiftB pos.toNat r ((r.head + pos.toNat) % r.buf.length)
    have hfields := insertShiftB_fields pos.toNat r ((r.head + pos.toNat) % r.buf.length)
    have hwfs : WF (insertShiftB r ((r.head + pos.toNat) % r.buf.length) pos.toNat) :=
      wf_of_fields hwf hfields.1 hfields.2.1 hfields.2.2.1 hfields.2.2.2
    have hspec := insertShiftB_spec pos.toNat r pos.toNat
      ((r.head + pos.toNat) % r.buf.length) hwf haN (le_refl _) rfl
    simp only [Nat.sub_self] at hspec
    obtain ⟨x, r2, hpop, hwf2, hcnt2, hlen2, hh2, hx, hlist2⟩ :=
      popFront_spec hwfs (show 0 < (insertShiftB r ((r.head + pos.toNat) % r.buf.length)
        pos.toNat).count from by rw [hfields.2.2.1]; omega)
    have hx0 : x = (toList r).getD pos.toNat default := by
      rw [hx, hspec 0 (by omega), if_neg (by omega), if_pos rfl]
    refine ⟨r2, ?_, hwf2, ?_, ?_, ?_⟩
    · unfold Remove
      rw [if_neg (by unfold Len; omega), if_neg (by omega)]
      dsimp only
      rw [if_pos hA, heq, hpop, hx0]
    · rw [hcnt2, hfields.2.2.1]
    · rw [hlen2, hfields.2.2.2]
    · rw [hlist2]
      apply ext_getD
      · simp only [List.length_drop, toList_length, hfields.2.2.1, List.length_append,
          List.length_take]
        omega
      intro i hi
      have hilt : i < r.count - 1 := by
        simp only [List.length_drop, toList_length, hfields.2.2.1] at hi
        exact hi
      rw [getD_drop, hspec (1 + i) (by omega),
        getD_removeList (toList r) pos.toNat hRlt i]
      by_cases hia : i < pos.toNat
      · rw [if_neg (by omega), if_neg (by omega),
          show 1 + i - 1 = i from by omega, if_pos hia]
      · rw [if_pos (Or.inr (show pos.toNat < 1 + i from by omega)),
          show 1 + i = i + 1 from by omega, if_neg hia]
  · -- back half: bubble the element forward to the back, then PopBack
    have heq : removeShiftB r ((r.head + pos.toNat) % r.buf.length)
        (r.count - pos.toNat - 1)
        = insertShiftF r ((r.head + pos.toNat) % r.buf.length)
          (r.count - pos.toNat - 1) :=
      removeShiftB_eq_insertShiftF (r.count - pos.toNat - 1) r
        ((r.head + pos.toNat) % r.buf.length)
    have hfields := insertShiftF_fields (r.count - pos.toNat - 1) r
      ((r.head + pos.toNat) % r.buf.length)
    have hwfs : WF (insertShiftF r ((r.head + pos.toNat) % r.buf.length)
        (r.count - pos.toNat - 1)) :=
      wf_of_fields hwf hfields.1 hfields.2.1 hfields.2.2.1 hfields.2.2.2
    have hspec := insertShiftF_spec (r.count - pos.toNat - 1) r pos.toNat
      ((r.head + pos.toNat) % r.buf.length) hwf (by omega) rfl
    rw [show pos.toNat + (r.count - pos.toNat - 1) = r.count - 1 from by omega] at hspec
    obtain ⟨x, r2, hpop, hwf2, hcnt2, hlen2, hh2, hx, hlist2⟩ :=
      popBack_spec hwfs (show 0 < (insertShiftF r ((r.head + pos.toNat) % r.buf.length)
        (r.count - pos.toNat - 1)).count from by rw [hfields.2.2.1]; omega)
    have hx0 : x = (toList r).getD pos.toNat default := by
      rw [hx, hfields.2.2.1, hspec (r.count - 1) (by omega), if_neg (by omega), if_pos rfl]
    refine ⟨r2, ?_, hwf2, ?_, ?_, ?_⟩
    · unfold Remove
      rw [if_neg (by unfold Len; omega), if_neg (by omega)]
      dsimp only
      rw [if_neg hA, heq, hpop, hx0]
    · rw [hcnt2, hfields.2.2.1]
    · rw [hlen2, hfields.2.2.2]
    · rw [hlist2]
      apply ext_getD
      · simp only [List.length_dropLast, toList_length, hfields.2.2.1, List.length_append,
          List.length_take, List.length_drop]
        omega
      intro i hi
      have hilt : i < r.count - 1 := by
        simp only [List.length_dropLast, toList_length, hfields.2.2.1] at hi
        exact hi
      have hbL : i < (toList (insertShiftF r ((r.head + pos.toNat) % r.buf.length)
          (r.count - pos.toNat - 1))).length - 1 := by
        rw [toList_length, hfields.2.2.1]
        omega
      rw [getD_dropLast _ _ hbL, hspec i (by omega),
        getD_removeList (toList r) pos.toNat hRlt i]
      by_cases hia : i < pos.toNat
      · rw [if_pos (Or.inl hia), if_pos hia]
      · rw [if_neg (by omega), if_neg (by omega), if_neg hia]

/-! ### Lemmas: `At`, `Set`, `Front`, `Back` -/

theorem at_ok {r : Ring T} (hwf : WF r) {i : Int} (h0 : 0 ≤ i) (hlt : i < (r.count : Int)) :
    r.At i = .ok ((toList r).getD i.toNat default) := by
  have hcle : r.count ≤ r.buf.length := hwf.count_le
  have hcnt : 0 < r.count := by omega
  have hc : 0 < r.buf.length := by omega
  unfold At goGet Len
  rw [if_neg (by omega), if_neg (by omega)]
  have hlt' : (r.head + i.toNat) % r.buf.length < r.buf.length := Nat.mod_lt _ hc
  rw [List.getElem?_eq_getElem hlt']
  dsimp only
  rw [toList_getD r (by omega), List.getD_eq_getElem _ _ hlt']

theorem at_oor {r : Ring T} {i : Int} (h : i < 0 ∨ (r.count : Int) ≤ i) :
    r.At i = .error (.outOfRange i r.count, r) := by
  unfold At Len
  rw [if_pos h]

theorem set_ok {r : Ring T} (hwf : WF r) {i : Int} (h0 : 0 ≤ i) (hlt : i < (r.count : Int))
    (v : T) :
    r.Set i v = .ok ⟨r.buf.set ((r.head + i.toNat) % r.buf.length) v,
      r.head, r.tail, r.count⟩ := by
  have hcle : r.count ≤ r.buf.length := hwf.count_le
  have hc : 0 < r.buf.length := by omega
  unfold Set goSet Len
  rw [if_neg (by omega), if_neg (by omega), if_pos (Nat.mod_lt _ hc)]

theorem set_oor {r : Ring T} {i : Int} (h : i < 0 ∨ (r.count : Int) ≤ i) (v : T) :
    r.Set i v = .error (.outOfRange i r.count, r) := by
  unfold Set Len
  rw [if_pos h]

theorem set_spec {r : Ring T} (hwf : WF r) {i : Int} (h0 : 0 ≤ i) (hlt : i < (r.count : Int))
    (v : T) :
    ∃ r', r.Set i v = .ok r' ∧ WF r' ∧ r'.count = r.count ∧ r'.head = r.head ∧
      r'.tail = r.tail ∧ r'.buf.length = r.buf.length ∧
      toList r' = (toList r).set i.toNat v := by
  have hcle : r.count ≤ r.buf.length := hwf.count_le
  have hc : 0 < r.buf.length := by omega
  refine ⟨_, set_ok hwf h0 hlt v, ?_, rfl, rfl, rfl, by simp, ?_⟩
  · refine ⟨by simp; omega, by simpa using hwf.2.1, by simpa using hwf.tail_eq⟩
  · apply List.ext_getElem
    · simp [toList_length]
    intro j h1 h2
    have hjlt : j < r.count := by simpa [toList_length] using h1
    rw [toList_getElem]
    simp only [List.length_set]
    rw [getD_set, List.getElem_set]
    by_cases hij : i.toNat = j
    · rw [if_pos ⟨by rw [hij], Nat.mod_lt _ hc⟩, if_pos hij]
    · have hne : ¬((r.head + i.toNat) % r.buf.length = (r.head + j) % r.buf.length ∧
          (r.head + i.toNat) % r.buf.length < r.buf.length) := by
        rintro ⟨he, -⟩
        exact hij (slot_inj (by omega) (by omega) he)
      rw [if_neg hne, if_neg hij, toList_getElem]

theorem front_ok {r : Ring T} (hwf : WF r) (hcnt : 0 < r.count) :
    r.Front = .ok ((toList r).getD 0 default) := by
  have hcle : r.count ≤ r.buf.length := hwf.count_le
  have hc : 0 < r.buf.length := by omega
  have hh : r.head < r.buf.length := hwf.head_lt hc
  unfold Front goGet
  rw [if_neg (by omega), List.getElem?_eq_getElem hh]
  dsimp only
  rw [toList_getD r hcnt, Nat.add_zero, Nat.mod_eq_of_lt hh, List.getD_eq_getElem _ _ hh]

theorem back_ok {r : Ring T} (hwf : WF r) (hcnt : 0 < r.count) :
    r.Back = .ok ((toList r).getD (r.count - 1) default) := by
  have hcle : r.count ≤ r.buf.length := hwf.count_le
  have hc : 0 < r.buf.length := by omega
  have ht0 : (r.tail + r.buf.length - 1) % r.buf.length
      = (r.head + (r.count - 1)) % r.buf.length := by
    rw [hwf.tail_eq]
    exact slot_pred hc r.head hcnt
  have hlt' : (r.tail + r.buf.length - 1) % r.buf.length < r.buf.length := Nat.mod_lt _ hc
  unfold Back goGet prev
  rw [if_neg (by omega), if_neg (by omega), List.getElem?_eq_getElem hlt']
  dsimp only
  rw [toList_getD r (by omega), ← ht0, List.getD_eq_getElem _ _ hlt']

theorem front_empty {r : Ring T} (h : r.count = 0) :
    r.Front = .error (.emptyBuffer "Front called when empty", r) := by
  unfold Front
  rw [if_pos h]

theorem back_empty {r : Ring T} (h : r.count = 0) :
    r.Back = .error (.emptyBuffer "Back called when empty", r) := by
  unfold Back
  rw [if_pos h]

theorem popFront_empty {r : Ring T} (h : r.count = 0) :
    r.PopFront = .error (.emptyBuffer "PopFront called when empty", r) := by
  unfold PopFront
  rw [if_pos h]

theorem popBack_empty {r : Ring T} (h : r.count = 0) :
    r.PopBack = .error (.emptyBuffer "PopBack called when empty", r) := by
  unfold PopBack
  rw [if_pos h]

theorem insert_oor {r : Ring T} {pos : Int} (h : pos < 0 ∨ (r.count : Int) < pos) (v : T) :
    r.Insert pos v = .error (.outOfRange pos r.count, r) := by
  unfold Insert Len
  rw [if_pos h]

theorem insert_full {r : Ring T} {pos : Int} (h0 : ¬(pos < 0 ∨ (r.count : Int) < pos))
    (hfull : r.Full = true) (v : T) :
    r.Insert pos v = .error (.fullBuffer, r) := by
  unfold Insert
  rw [if_neg h0, if_pos hfull]

theorem remove_oor {r : Ring T} {pos : Int} (h : pos < 0 ∨ (r.count : Int) ≤ pos) :
    r.Remove pos = .error (.outOfRange pos r.count, r) := by
  unfold Remove Len
  rw [if_pos h]

theorem insert_remove_list (l : List T) (a : Nat) (ha : a ≤ l.length) (v : T) :
    (l.take a ++ v :: l.drop a).take a ++ (l.take a ++ v :: l.drop a).drop (a + 1) = l := by
  have hT : (l.take a).length = a := by simp [Nat.min_eq_left ha]
  rw [List.take_left' hT,
    show l.take a ++ v :: l.drop a = (l.take a ++ [v]) ++ l.drop a from by simp,
    List.drop_left' (by simp [hT]), List.take_append_drop]

/-! ### Lemmas: the zero-slot invariant on reachable states -/

theorem bindErr {e a b : Type} (x : e) (f : a → Except e b) :
    ((Except.error x : Except e a) >>= f) = .error x := rfl

theorem getD_replicate_default (n i : Nat) :
    (List.replicate n (default : T)).getD i default = default := by
  rw [List.getD_eq_getElem?_getD]
  rcases Nat.lt_or_ge i n with hlt | hge
  · rw [List.getElem?_eq_getElem (by simpa using hlt)]
    simp
  · rw [List.getElem?_eq_none (by simpa using hge)]
    rfl

theorem slot_surj {n : Nat} (hn : 0 < n) (h j : Nat) (hj : j < n) :
    ∃ i, i < n ∧ (h + i) % n = j := by
  refine ⟨(j + n - h % n) % n, Nat.mod_lt _ hn, ?_⟩
  have hhm : h % n < n := Nat.mod_lt _ hn
  rw [Nat.add_mod_mod, ← Nat.mod_add_mod,
    show h % n + (j + n - h % n) = j + n from by omega,
    Nat.add_mod_right, Nat.mod_eq_of_lt hj]

theorem zeroes_of_full {r : Ring T} (h : r.buf.length ≤ r.count) : Zeroes r := by
  intro j hj hun
  obtain ⟨i, hi, he⟩ := slot_surj (by omega) r.head j hj
  exact absurd he (hun i (by omega))

theorem slot_pred_zero {n : Nat} (hn : 0 < n) {h c : Nat} (hc1 : 1 ≤ c)
    (h0 : (h + c) % n = 0) : (h + (c - 1)) % n = n - 1 := by
  have hd : n ∣ h + c := Nat.dvd_of_mod_eq_zero h0
  obtain ⟨m, hm⟩ := hd
  rcases m with - | m'
  · simp at hm
    omega
  · have hm' : h + c = n * m' + n := by rw [hm]; ring
    rw [show h + (c - 1) = (n - 1) + n * m' from by omega, Nat.add_mul_mod_self_left,
      Nat.mod_eq_of_lt (by omega)]

theorem wfx_of_fields {r s : Ring T} (hx : WFx r) (h1 : s.head = r.head)
    (h2 : s.tail = r.tail) (h3 : s.count = r.count) (h4 : s.buf.length = r.buf.length) :
    WFx s := by
  refine ⟨?_, ?_, ?_⟩
  · rw [h3, h4]
    exact hx.1
  · rw [h1, h4]
    exact hx.2.1
  · rw [h1, h2, h3, h4]
    exact hx.2.2

theorem wfx_new (c : Nat) : WFx (New T c) := by
  refine ⟨Nat.zero_le _, Or.inl rfl, Or.inl ?_⟩
  show (0 : Nat) = (0 + 0) % (List.replicate c (default : T)).length
  simp

theorem zeroes_new (c : Nat) : Zeroes (New T c) := by
  intro j hj hun
  exact getD_replicate_default c j

/-! Preservation of `WFx` and `Zeroes` by the pushes and pops. -/

theorem pushBack_eq_oob {r : Ring T} (ht : ¬ r.tail < r.buf.length) (v : T) :
    r.PushBack v = .error (.runtimeOutOfBounds r.tail r.buf.length, r) := by
  unfold PushBack goSet
  rw [if_neg ht]
  rfl

theorem pushFront_eq_nil {r : Ring T} (h : r.buf.length = 0) (v : T) :
    r.PushFront v = .error (.runtimeDivByZero, r) := by
  unfold PushFront
  rw [if_pos h]

theorem popFront_eq_x {r : Ring T} (hcnt : 0 < r.count) (hh : r.head < r.buf.length) :
    r.PopFront = .ok (r.buf.getD r.head default,
      ⟨r.buf.set r.head default, (r.head + 1) % r.buf.length, r.tail, r.count - 1⟩) := by
  unfold PopFront goGet goSet next
  rw [if_neg (by omega)]
  rw [List.getElem?_eq_getElem hh]
  simp only [Bind.bind, Except.bind, Pure.pure, Except.pure, hh, if_pos, List.length_set]
  rw [List.getD_eq_getElem _ _ hh]

theorem popBack_eq_x {r : Ring T} (hcnt : 0 < r.count) (hc : 0 < r.buf.length) :
    r.PopBack = .ok (r.buf.getD ((r.tail + r.buf.length - 1) % r.buf.length) default,
      ⟨r.buf.set ((r.tail + r.buf.length - 1) % r.buf.length) default, r.head,
        (r.tail + r.buf.length - 1) % r.buf.length, r.count - 1⟩) := by
  have ht : (r.tail + r.buf.length - 1) % r.buf.length < r.buf.length := Nat.mod_lt _ hc
  unfold PopBack goGet goSet prev
  rw [if_neg (by omega), if_neg (by omega)]
  dsimp only
  rw [List.getElem?_eq_getElem ht]
  simp only [Bind.bind, Except.bind, Pure.pure, Except.pure, ht, if_pos, List.length_set]
  rw [List.getD_eq_getElem _ _ ht]

theorem set_ok_x {r : Ring T} {i : Int} (h0 : 0 ≤ i) (hlt : i < (r.count : Int))
    (hc : 0 < r.buf.length) (v : T) :
    r.Set i v = .ok ⟨r.buf.set ((r.head + i.toNat) % r.buf.length) v,
      r.head, r.tail, r.count⟩ := by
  unfold Set goSet Len
  rw [if_neg (by omega), if_neg (by omega), if_pos (Nat.mod_lt _ hc)]

theorem pushBack_pres {r r' : Ring T} (hx : WFx r) (hz : Zeroes r) {v : T}
    (he : r.PushBack v = .ok r') : WFx r' ∧ Zeroes r' := by
  have hcle := hx.1
  rcases hx.2.2 with hA | hB
  · have hwf : WF r := ⟨hx.1, hx.2.1, hA⟩
    by_cases ht : r.tail < r.buf.length
    · have hc : 0 < r.buf.length := by omega
      rcases Nat.lt_or_ge r.count r.buf.length with hlt | hge
      · rw [pushBack_eq_not_full hwf hlt v] at he
        obtain rfl := Except.ok.inj he
        refine ⟨?_, ?_⟩
        · refine ⟨by simp only [List.length_set]; omega,
            by simpa using hx.2.1, Or.inl ?_⟩
          simp only [List.length_set]
          rw [hA, slot_succ]
        · intro j hj hun
          simp only [List.length_set] at hj hun
          rw [getD_set]
          have htj : ¬ r.tail = j := by
            intro he2
            have hx2 := hun r.count (by omega)
            rw [← hA] at hx2
            exact hx2 he2
          rw [if_neg (fun hcon => htj hcon.1)]
          apply hz j hj
          intro i hi
          exact hun i (by omega)
      · have hfull : r.count = r.buf.length := by omega
        rw [pushBack_eq_full hwf hc hfull v] at he
        obtain rfl := Except.ok.inj he
        refine ⟨?_, zeroes_of_full (by simp only [List.length_set]; omega)⟩
        refine ⟨by simp only [List.length_set]; omega,
          Or.inr (by simp only [List.length_set]; exact Nat.mod_lt _ hc), Or.inl ?_⟩
        simp only [List.length_set]
        rw [hA, Nat.mod_add_mod, Nat.mod_add_mod,
          show r.head + 1 + r.count = r.head + r.count + 1 from by omega]
    · rw [pushBack_eq_oob ht v] at he
      exact Except.noConfusion he
  · rw [pushBack_eq_oob (by omega) v] at he
    exact Except.noConfusion he

theorem pushFront_pres {r r' : Ring T} (hx : WFx r) (hz : Zeroes r) {v : T}
    (he : r.PushFront v = .ok r') : WFx r' ∧ Zeroes r' := by
  have hcle := hx.1
  rcases Nat.eq_zero_or_pos r.buf.length with h00 | hc
  · rw [pushFront_eq_nil h00 v] at he
    exact Except.noConfusion he
  · have hh : (r.head + r.buf.length - 1) % r.buf.length < r.buf.length := Nat.mod_lt _ hc
    rcases Nat.lt_or_ge r.count r.buf.length with hlt | hge
    · rw [pushFront_eq_not_full hlt v] at he
      obtain rfl := Except.ok.inj he
      refine ⟨?_, ?_⟩
      · refine ⟨by simp only [List.length_set]; omega,
          Or.inr (by simp only [List.length_set]; exact hh), ?_⟩
        rcases hx.2.2 with hA | hB
        · left
          simp only [List.length_set]
          rw [hA, Nat.mod_add_mod,
            show r.head + r.buf.length - 1 + (r.count + 1)
              = r.head + r.count + r.buf.length from by omega,
            Nat.add_mod_right]
        · right
          refine ⟨by simp only [List.length_set]; exact hB.1, ?_⟩
          simp only [List.length_set]
          rw [Nat.mod_add_mod,
            show r.head + r.buf.length - 1 + (r.count + 1)
              = r.head + r.count + r.buf.length from by omega,
            Nat.add_mod_right]
          exact hB.2
      · intro j hj hun
        simp only [List.length_set] at hj hun
        rw [getD_set]
        have hhj : ¬ (r.head + r.buf.length - 1) % r.buf.length = j := by
          intro he2
          have hx2 := hun 0 (by omega)
          rw [Nat.add_zero, Nat.mod_eq_of_lt hh] at hx2
          exact hx2 he2
        rw [if_neg (fun hcon => hhj hcon.1)]
        apply hz j hj
        intro i hi
        have hx2 := hun (i + 1) (by omega)
        rwa [Nat.mod_add_mod,
          show r.head + r.buf.length - 1 + (i + 1) = r.head + i + r.buf.length from by omega,
          Nat.add_mod_right] at hx2
    · have hfull : r.count = r.buf.length := by omega
      rw [pushFront_eq_full hc hfull v] at he
      obtain rfl := Except.ok.inj he
      refine ⟨?_, zeroes_of_full (by simp only [List.length_set]; omega)⟩
      refine ⟨by simp only [List.length_set]; omega,
        Or.inr (by simp only [List.length_set]; exact hh), Or.inl ?_⟩
      simp only [List.length_set]
      rcases hx.2.2 with hA | hB
      · rw [hA, slot_pred hc r.head (by omega), Nat.mod_add_mod,
          show r.head + r.buf.length - 1 + r.count
            = r.head + (r.count - 1) + r.buf.length from by omega,
          Nat.add_mod_right]
      · have hh0 : r.head = 0 := by
          rcases hx.2.1 with h | h
          · exact h
          · have hx2 := hB.2
            rw [hfull, Nat.add_mod_right, Nat.mod_eq_of_lt h] at hx2
            exact hx2
        rw [hB.1, hh0,
          show r.buf.length + r.buf.length - 1 = (r.buf.length - 1) + r.buf.length
            from by omega,
          Nat.add_mod_right, Nat.mod_add_mod, Nat.zero_add, hfull, Nat.add_mod_right]

theorem popFront_pres {r : Ring T} {p : T × Ring T} (hx : WFx r) (hz : Zeroes r)
    (he : r.PopFront = .ok p) : WFx p.2 ∧ Zeroes p.2 := by
  have hcle := hx.1
  by_cases hcnt : r.count = 0
  · rw [popFront_empty hcnt] at he
    exact Except.noConfusion he
  · have hc : 0 < r.buf.length := by omega
    have hh : r.head < r.buf.length := by rcases hx.2.1 with h | h <;> omega
    rw [popFront_eq_x (by omega) hh] at he
    obtain rfl := Except.ok.inj he
    refine ⟨?_, ?_⟩
    · refine ⟨by simp only [List.length_set]; omega,
        Or.inr (by simp only [List.length_set]; exact Nat.mod_lt _ hc), ?_⟩
      rcases hx.2.2 with hA | hB
      · left
        simp only [List.length_set]
        rw [hA, Nat.mod_add_mod,
          show r.head + 1 + (r.count - 1) = r.head + r.count from by omega]
      · right
        refine ⟨by simp only [List.length_set]; exact hB.1, ?_⟩
        simp only [List.length_set]
        rw [Nat.mod_add_mod,
          show r.head + 1 + (r.count - 1) = r.head + r.count from by omega]
        exact hB.2
    · intro j hj hun
      simp only [List.length_set] at hj hun
      rw [getD_set]
      by_cases hhj : r.head = j
      · rw [if_pos ⟨hhj, hh⟩]
      · rw [if_neg (fun hcon => hhj hcon.1)]
        apply hz j hj
        intro i hi
        rcases Nat.eq_zero_or_pos i with rfl | hip
        · rw [Nat.add_zero, Nat.mod_eq_of_lt hh]
          exact hhj
        · have hx2 := hun (i - 1) (by omega)
          rwa [Nat.mod_add_mod, show r.head + 1 + (i - 1) = r.head + i from by omega] at hx2

theorem popBack_pres {r : Ring T} {p : T × Ring T} (hx : WFx r) (hz : Zeroes r)
    (he : r.PopBack = .ok p) : WFx p.2 ∧ Zeroes p.2 := by
  have hcle := hx.1
  by_cases hcnt : r.count = 0
  · rw [popBack_empty hcnt] at he
    exact Except.noConfusion he
  · have hc : 0 < r.buf.length := by omega
    have hpt : (r.tail + r.buf.length - 1) % r.buf.length
        = (r.head + (r.count - 1)) % r.buf.length := by
      rcases hx.2.2 with hA | hB
      · rw [hA]
        exact slot_pred hc r.head (by omega)
      · rw [hB.1, slot_pred_zero hc (by omega) hB.2,
          show r.buf.length + r.buf.length - 1 = (r.buf.length - 1) + r.buf.length
            from by omega,
          Nat.add_mod_right, Nat.mod_eq_of_lt (by omega)]
    rw [popBack_eq_x (by omega) hc] at he
    obtain rfl := Except.ok.inj he
    refine ⟨?_, ?_⟩
    · refine ⟨by simp only [List.length_set]; omega,
        by simpa using hx.2.1, Or.inl ?_⟩
      simp only [List.length_set]
      rw [hpt]
    · intro j hj hun
      simp only [List.length_set] at hj hun
      rw [getD_set]
      by_cases hptj : (r.tail + r.buf.length - 1) % r.buf.length = j
      · rw [if_pos ⟨hptj, Nat.mod_lt _ hc⟩]
      · rw [if_neg (fun hcon => hptj hcon.1)]
        apply hz j hj
        intro i hi
        rcases Nat.lt_or_ge i (r.count - 1) with hic | hic
        · exact hun i hic
        · have hieq : i = r.count - 1 := by omega
          rw [hieq, ← hpt]
          exact hptj

theorem set_pres {r r' : Ring T} (hx : WFx r) (hz : Zeroes r) {i : Int} {v : T}
    (he : r.Set i v = .ok r') : WFx r' ∧ Zeroes r' := by
  have hcle := hx.1
  by_cases hb : 0 ≤ i ∧ i < (r.count : Int)
  · have hc : 0 < r.buf.length := by omega
    rw [set_ok_x hb.1 hb.2 hc v] at he
    obtain rfl := Except.ok.inj he
    refine ⟨wfx_of_fields hx rfl rfl rfl (by simp), ?_⟩
    intro j hj hun
    simp only [List.length_set] at hj hun
    rw [getD_set]
    have hij : ¬ (r.head + i.toNat) % r.buf.length = j := by
      intro he2
      exact hun i.toNat (by omega) he2
    rw [if_neg (fun hcon => hij hcon.1)]
    exact hz j hj hun
  · rw [set_oor (by omega) v] at he
    exact Except.noConfusion he

/-! Preservation of `Zeroes` by the adjacent-swap loops of `Insert`/`Remove`:
the loops only ever swap two occupied slots, so the unoccupied slots keep
their zero values. -/

theorem zeroes_swap {r : Ring T} (hz : Zeroes r) (hcle : r.count ≤ r.buf.length)
    {a b : Nat} (ha : a < r.count) (hb : b < r.count) :
    Zeroes { r with buf := (swapAt r.buf ((r.head + a) % r.buf.length)
      ((r.head + b) % r.buf.length)) } := by
  intro j hj hun
  have hc : 0 < r.buf.length := by omega
  dsimp only at hj hun ⊢
  rw [length_swapAt] at hj
  have hun' : ∀ i, i < r.count → (r.head + i) % r.buf.length ≠ j := by
    intro i hi
    have hx2 := hun i hi
    rwa [length_swapAt] at hx2
  rw [getD_swapAt _ _ _ _ (Nat.mod_lt _ hc) (Nat.mod_lt _ hc),
    if_neg (hun' b hb), if_neg (hun' a ha)]
  exact hz j hj hun'

theorem zeroes_insertShiftF (k : Nat) :
    ∀ (r : Ring T) (m front : Nat), m + k < r.count → r.count ≤ r.buf.length →
      front = (r.head + m) % r.buf.length → Zeroes r →
      Zeroes (insertShiftF r front k) := by
  induction k with
  | zero =>
    intro r m front hmk hcle hfront hz
    simpa [insertShiftF] using hz
  | succ k ih =>
    intro r m front hmk hcle hfront hz
    have hc : 0 < r.buf.length := by omega
    subst hfront
    rw [insertShiftF, slot_succ]
    exact ih _ (m + 1) _
      (show m + 1 + k < r.count from by omega)
      (by dsimp only
          rw [show (swapAt r.buf ((r.head + m) % r.buf.length)
            ((r.head + (m + 1)) % r.buf.length)).length = r.buf.length
            from length_swapAt _ _ _]
          exact hcle)
      (by dsimp only
          rw [show (swapAt r.buf ((r.head + m) % r.buf.length)
            ((r.head + (m + 1)) % r.buf.length)).length = r.buf.length
            from length_swapAt _ _ _])
      (zeroes_swap hz hcle (show m < r.count from by omega)
        (show m + 1 < r.count from by omega))

theorem zeroes_insertShiftB (k : Nat) :
    ∀ (r : Ring T) (m back : Nat), m < r.count → k ≤ m → r.count ≤ r.buf.length →
      back = (r.head + m) % r.buf.length → Zeroes r →
      Zeroes (insertShiftB r back k) := by
  induction k with
  | zero =>
    intro r m back hm hk hcle hback hz
    simpa [insertShiftB] using hz
  | succ k ih =>
    intro r m back hm hk hcle hback hz
    have hc : 0 < r.buf.length := by omega
    subst hback
    rw [insertShiftB, slot_pred hc r.head (show 1 ≤ m from by omega)]
    exact ih _ (m - 1) _
      (show m - 1 < r.count from by omega)
      (show k ≤ m - 1 from by omega)
      (by dsimp only
          rw [show (swapAt r.buf ((r.head + m) % r.buf.length)
            ((r.head + (m - 1)) % r.buf.length)).length = r.buf.length
            from length_swapAt _ _ _]
          exact hcle)
      (by dsimp only
          rw [show (swapAt r.buf ((r.head + m) % r.buf.length)
            ((r.head + (m - 1)) % r.buf.length)).length = r.buf.length
            from length_swapAt _ _ _])
      (zeroes_swap hz hcle hm (show m - 1 < r.count from by omega))

/-! Preservation of `WFx` and `Zeroes` by `Rotate`. -/

theorem rotFwd_step_zeroes {r : Ring T} (hwf : WF r) (h0 : 0 < r.count)
    (hlt : r.count < r.buf.length) (hz : Zeroes r) :
    Zeroes (⟨(r.buf.set r.tail (r.buf.getD r.head default)).set r.head default,
      (r.head + 1) % r.buf.length, (r.tail + 1) % r.buf.length, r.count⟩ : Ring T) := by
  have hc : 0 < r.buf.length := by omega
  have hh : r.head < r.buf.length := hwf.head_lt hc
  intro j hj hun
  simp only [List.length_set] at hj hun
  rw [getD_set]
  simp only [List.length_set]
  by_cases hhj : r.head = j
  · rw [if_pos ⟨hhj, hh⟩]
  · rw [if_neg (fun hcon => hhj hcon.1), getD_set]
    have htj : ¬ r.tail = j := by
      intro he2
      have hx2 := hun (r.count - 1) (by omega)
      rw [Nat.mod_add_mod, show r.head + 1 + (r.count - 1) = r.head + r.count from by omega,
        ← hwf.tail_eq] at hx2
      exact hx2 he2
    rw [if_neg (fun hcon => htj hcon.1)]
    apply hz j hj
    intro i hi
    rcases Nat.eq_zero_or_pos i with rfl | hip
    · rw [Nat.add_zero, Nat.mod_eq_of_lt hh]
      exact hhj
    · have hx2 := hun (i - 1) (by omega)
      rwa [Nat.mod_add_mod, show r.head + 1 + (i - 1) = r.head + i from by omega] at hx2

theorem rotFwd_zeroes (k : Nat) : ∀ (r r' : Ring T), WF r → 0 < r.count →
    r.count < r.buf.length → Zeroes r → rotFwd r k = .ok r' → Zeroes r' := by
  induction k with
  | zero =>
    intro r r' hwf h0 hlt hz he
    rw [rotFwd] at he
    obtain rfl := Except.ok.inj he
    exact hz
  | succ k ih =>
    intro r r' hwf h0 hlt hz he
    rw [rotFwd_step_eq hwf h0 hlt] at he
    exact ih _ _ (rotFwd_step_wf hwf h0 hlt) h0 (by simpa using hlt)
      (rotFwd_step_zeroes hwf h0 hlt hz) he

theorem rotBwd_step_zeroes {r : Ring T} (hwf : WF r) (h0 : 0 < r.count)
    (hlt : r.count < r.buf.length) (hz : Zeroes r) :
    Zeroes (⟨(r.buf.set ((r.head + r.buf.length - 1) % r.buf.length)
        (r.buf.getD ((r.tail + r.buf.length - 1) % r.buf.length) default)).set
        ((r.tail + r.buf.length - 1) % r.buf.length) default,
      (r.head + r.buf.length - 1) % r.buf.length,
      (r.tail + r.buf.length - 1) % r.buf.length, r.count⟩ : Ring T) := by
  have hc : 0 < r.buf.length := by omega
  have hpt : (r.tail + r.buf.length - 1) % r.buf.length
      = (r.head + (r.count - 1)) % r.buf.length := by
    rw [hwf.tail_eq]
    exact slot_pred hc r.head (by omega)
  intro j hj hun
  simp only [List.length_set] at hj hun
  rw [getD_set]
  simp only [List.length_set]
  by_cases hptj : (r.tail + r.buf.length - 1) % r.buf.length = j
  · rw [if_pos ⟨hptj, Nat.mod_lt _ hc⟩]
  · rw [if_neg (fun hcon => hptj hcon.1), getD_set]
    have hphj : ¬ (r.head + r.buf.length - 1) % r.buf.length = j := by
      intro he2
      have hx2 := hun 0 (by omega)
      rw [Nat.add_zero, Nat.mod_eq_of_lt (Nat.mod_lt _ hc)] at hx2
      exact hx2 he2
    rw [if_neg (fun hcon => hphj hcon.1)]
    apply hz j hj
    intro i hi
    rcases Nat.lt_or_ge i (r.count - 1) with hic | hic
    · have hx2 := hun (i + 1) (by omega)
      rwa [Nat.mod_add_mod,
        show r.head + r.buf.length - 1 + (i + 1) = r.head + i + r.buf.length from by omega,
        Nat.add_mod_right] at hx2
    · have hieq : i = r.count - 1 := by omega
      rw [hieq, ← hpt]
      exact hptj

theorem rotBwd_zeroes (k : Nat) : ∀ (r r' : Ring T), WF r → 0 < r.count →
    r.count < r.buf.length → Zeroes r → rotBwd r k = .ok r' → Zeroes r' := by
  induction k with
  | zero =>
    intro r r' hwf h0 hlt hz he
    rw [rotBwd] at he
    obtain rfl := Except.ok.inj he
    exact hz
  | succ k ih =>
    intro r r' hwf h0 hlt hz he
    rw [rotBwd_step_eq hwf h0 hlt] at he
    exact ih _ _ (rotBwd_step_wf hwf h0 hlt) h0 (by simpa using hlt)
      (rotBwd_step_zeroes hwf h0 hlt hz) he

theorem rotBwd_step_eq_x {r : Ring T} (hc : 0 < r.buf.length) (k : Nat) :
    rotBwd r (k + 1) = rotBwd ⟨(r.buf.set ((r.head + r.buf.length - 1) % r.buf.length)
        (r.buf.getD ((r.tail + r.buf.length - 1) % r.buf.length) default)).set
        ((r.tail + r.buf.length - 1) % r.buf.length) default,
      (r.head + r.buf.length - 1) % r.buf.length,
      (r.tail + r.buf.length - 1) % r.buf.length, r.count⟩ k := by
  have hpt : (r.tail + r.buf.length - 1) % r.buf.length < r.buf.length := Nat.mod_lt _ hc
  have hph : (r.head + r.buf.length - 1) % r.buf.length < r.buf.length := Nat.mod_lt _ hc
  have e1 : goGet (⟨r.buf, (r.head + r.buf.length - 1) % r.buf.length,
      (r.tail + r.buf.length - 1) % r.buf.length, r.count⟩ : Ring T)
      ((r.tail + r.buf.length - 1) % r.buf.length)
      = .ok (r.buf.getD ((r.tail + r.buf.length - 1) % r.buf.length) default) := by
    unfold goGet
    rw [List.getElem?_eq_getElem hpt, List.getD_eq_getElem _ _ hpt]
  have e2 : goSet (⟨r.buf, (r.head + r.buf.length - 1) % r.buf.length,
      (r.tail + r.buf.length - 1) % r.buf.length, r.count⟩ : Ring T)
      ((r.head + r.buf.length - 1) % r.buf.length)
      (r.buf.getD ((r.tail + r.buf.length - 1) % r.buf.length) default)
      = .ok ⟨r.buf.set ((r.head + r.buf.length - 1) % r.buf.length)
          (r.buf.getD ((r.tail + r.buf.length - 1) % r.buf.length) default),
        (r.head + r.buf.length - 1) % r.buf.length,
        (r.tail + r.buf.length - 1) % r.buf.length, r.count⟩ := by
    unfold goSet
    rw [if_pos hph]
  have e3 : goSet (⟨r.buf.set ((r.head + r.buf.length - 1) % r.buf.length)
          (r.buf.getD ((r.tail + r.buf.length - 1) % r.buf.length) default),
        (r.head + r.buf.length - 1) % r.buf.length,
        (r.tail + r.buf.length - 1) % r.buf.length, r.count⟩ : Ring T)
      ((r.tail + r.buf.length - 1) % r.buf.length) default
      = .ok ⟨(r.buf.set ((r.head + r.buf.length - 1) % r.buf.length)
          (r.buf.getD ((r.tail + r.buf.length - 1) % r.buf.length) default)).set
          ((r.tail + r.buf.length - 1) % r.buf.length) default,
        (r.head + r.buf.length - 1) % r.buf.length,
        (r.tail + r.buf.length - 1) % r.buf.length, r.count⟩ := by
    unfold goSet
    rw [if_pos (by simpa using hpt)]
  rw [rotBwd]
  unfold prev
  dsimp only
  rw [e1, bindOk, e2, bindOk, e3, bindOk]

theorem rotBwd_full_pres (k : Nat) : ∀ (r r' : Ring T), r.head = r.tail →
    r.head < r.buf.length → r.count = r.buf.length →
    rotBwd r k = .ok r' → WFx r' ∧ Zeroes r' := by
  induction k with
  | zero =>
    intro r r' hht hh hfull he
    rw [rotBwd] at he
    obtain rfl := Except.ok.inj he
    refine ⟨⟨le_of_eq hfull, Or.inr hh, Or.inl ?_⟩, zeroes_of_full (le_of_eq hfull.symm)⟩
    rw [← hht, hfull, Nat.add_mod_right, Nat.mod_eq_of_lt hh]
  | succ k ih =>
    intro r r' hht hh hfull he
    have hc : 0 < r.buf.length := by omega
    rw [rotBwd_step_eq_x hc] at he
    exact ih _ _ (by rw [hht]) (by simp only [List.length_set]; exact Nat.mod_lt _ hc)
      (by simp only [List.length_set]; exact hfull) he

theorem rotFwd_oob {r : Ring T} (hh : r.head < r.buf.length) (ht : r.buf.length ≤ r.tail)
    (k : Nat) : rotFwd r (k + 1)
      = .error (.runtimeOutOfBounds r.tail r.buf.length, r) := by
  have e1 : r.goGet r.head = .ok (r.buf.getD r.head default) := by
    unfold goGet
    rw [List.getElem?_eq_getElem hh, List.getD_eq_getElem _ _ hh]
  have e2 : goSet r r.tail (r.buf.getD r.head default)
      = .error (.runtimeOutOfBounds r.tail r.buf.length, r) := by
    unfold goSet
    rw [if_neg (by omega)]
  rw [rotFwd, e1, bindOk, e2, bindErr]

theorem rotBwd_tail_len {r : Ring T} (htl : r.tail = r.buf.length) (k : Nat) :
    rotBwd r (k + 1) = rotBwd (⟨r.buf, r.head, 0, r.count⟩ : Ring T) (k + 1) := by
  rw [rotBwd, rotBwd]
  unfold prev
  dsimp only
  rw [htl, show r.buf.length + r.buf.length - 1 = (r.buf.length - 1) + r.buf.length
      from by omega,
    Nat.add_mod_right,
    show (0 : Nat) + r.buf.length - 1 = r.buf.length - 1 from by omega]

theorem rotate_pres {r r' : Ring T} (hx : WFx r) (hz : Zeroes r) (n : Int)
    (he : r.Rotate n = .ok r') : WFx r' ∧ Zeroes r' := by
  have hcle := hx.1
  by_cases hle : r.count ≤ 1
  · have hr : r.Rotate n = .ok r := by
      unfold Rotate Len
      rw [if_pos hle]
    rw [hr] at he
    obtain rfl := Except.ok.inj he
    exact ⟨hx, hz⟩
  · have h2 : 2 ≤ r.count := by omega
    have hLpos : 0 < r.buf.length := by omega
    have hcpos : (0 : Int) < (r.count : Int) := by exact_mod_cast (by omega : 0 < r.count)
    by_cases hzm : Int.tmod n (r.count : Int) = 0
    · have hr : r.Rotate n = .ok r := by
        unfold Rotate Len
        rw [if_neg (by omega)]
        dsimp only
        rw [if_pos hzm]
      rw [hr] at he
      obtain rfl := Except.ok.inj he
      exact ⟨hx, hz⟩
    · by_cases hht : r.head = r.tail
      · -- the pointer-moving full branch
        rcases hx.2.2 with hA | hB
        · have hwf : WF r := ⟨hx.1, hx.2.1, hA⟩
          have hme : (r.head + r.count) % r.buf.length = (r.head + 0) % r.buf.length := by
            rw [← hwf.tail_eq, ← hht, Nat.add_zero, Nat.mod_eq_of_lt (hwf.head_lt hLpos)]
          have hdvd : r.buf.length ∣ r.count :=
            (Nat.modEq_zero_iff_dvd).mp (Nat.ModEq.add_left_cancel' r.head hme)
          have hcl : r.count = r.buf.length :=
            Nat.le_antisymm hwf.count_le (Nat.le_of_dvd (by omega) hdvd)
          have hr : r.Rotate n = .ok ⟨r.buf,
              (((r.head : Int) + Int.tmod n (r.count : Int)
                + (r.buf.length : Int)).toNat) % r.buf.length,
              (((r.head : Int) + Int.tmod n (r.count : Int)
                + (r.buf.length : Int)).toNat) % r.buf.length, r.count⟩ := by
            unfold Rotate Len
            rw [if_neg (by omega)]
            dsimp only
            rw [if_neg hzm, if_pos hht]
          rw [hr] at he
          obtain rfl := Except.ok.inj he
          refine ⟨⟨hwf.count_le, Or.inr (Nat.mod_lt _ hLpos), Or.inl ?_⟩,
            zeroes_of_full (by dsimp only; omega)⟩
          rw [Nat.mod_add_mod, hcl, Nat.add_mod_right]
        · exfalso
          rcases hx.2.1 with h | h <;> omega
      · by_cases hneg : Int.tmod n (r.count : Int) < 0
        · -- backward loop
          have hr : r.Rotate n = rotBwd r (Int.tmod n (r.count : Int)).natAbs := by
            unfold Rotate Len
            rw [if_neg (by omega)]
            dsimp only
            rw [if_neg hzm, if_neg hht, if_pos hneg]
          rw [hr] at he
          obtain ⟨k', hk'⟩ : ∃ k', (Int.tmod n (r.count : Int)).natAbs = k' + 1 :=
            ⟨(Int.tmod n (r.count : Int)).natAbs - 1, by omega⟩
          rcases hx.2.2 with hA | hB
          · have hwf : WF r := ⟨hx.1, hx.2.1, hA⟩
            have hclt : r.count < r.buf.length := by
              rcases Nat.lt_or_ge r.count r.buf.length with h | h
              · exact h
              · exfalso
                apply hht
                have hcl : r.count = r.buf.length := by omega
                rw [hwf.tail_eq, hcl, Nat.add_mod_right,
                  Nat.mod_eq_of_lt (hwf.head_lt hLpos)]
            obtain ⟨r'', h1, hwf'', -⟩ :=
              rotBwd_spec (Int.tmod n (r.count : Int)).natAbs r hwf (by omega) hclt
            have hz' := rotBwd_zeroes (Int.tmod n (r.count : Int)).natAbs r r' hwf
              (by omega) hclt hz he
            rw [h1] at he
            obtain rfl := Except.ok.inj he
            exact ⟨hwf''.wfx, hz'⟩
          · rw [hk', rotBwd_tail_len hB.1 k'] at he
            rcases Nat.lt_or_ge r.count r.buf.length with hclt | hge
            · have hwf2 : WF (⟨r.buf, r.head, 0, r.count⟩ : Ring T) :=
                ⟨hcle, hx.2.1, hB.2.symm⟩
              obtain ⟨r'', h1, hwf'', -⟩ := rotBwd_spec (k' + 1) _ hwf2
                (show 0 < r.count from by omega) hclt
              have hz' := rotBwd_zeroes (k' + 1) _ r' hwf2
                (show 0 < r.count from by omega) hclt
                (fun j hj hun => hz j hj hun) he
              rw [h1] at he
              obtain rfl := Except.ok.inj he
              exact ⟨hwf''.wfx, hz'⟩
            · have hfull : r.count = r.buf.length := by omega
              have hh0 : r.head = 0 := by
                rcases hx.2.1 with h | h
                · exact h
                · have hx2 := hB.2
                  rw [hfull, Nat.add_mod_right, Nat.mod_eq_of_lt h] at hx2
                  exact hx2
              exact rotBwd_full_pres (k' + 1) (⟨r.buf, r.head, 0, r.count⟩ : Ring T) r'
                (show r.head = (0 : Nat) from hh0)
                (show r.head < r.buf.length from by omega) hfull he
        · -- forward loop
          have hpos : 0 < Int.tmod n (r.count : Int) := by omega
          have hr : r.Rotate n = rotFwd r (Int.tmod n (r.count : Int)).natAbs := by
            unfold Rotate Len
            rw [if_neg (by omega)]
            dsimp only
            rw [if_neg hzm, if_neg hht, if_neg hneg]
          rw [hr] at he
          obtain ⟨k', hk'⟩ : ∃ k', (Int.tmod n (r.count : Int)).natAbs = k' + 1 :=
            ⟨(Int.tmod n (r.count : Int)).natAbs - 1, by omega⟩
          rcases hx.2.2 with hA | hB
          · have hwf : WF r := ⟨hx.1, hx.2.1, hA⟩
            have hclt : r.count < r.buf.length := by
              rcases Nat.lt_or_ge r.count r.buf.length with h | h
              · exact h
              · exfalso
                apply hht
                have hcl : r.count = r.buf.length := by omega
                rw [hwf.tail_eq, hcl, Nat.add_mod_right,
                  Nat.mod_eq_of_lt (hwf.head_lt hLpos)]
            obtain ⟨r'', h1, hwf'', -⟩ :=
              rotFwd_spec (Int.tmod n (r.count : Int)).natAbs r hwf (by omega) hclt
            have hz' := rotFwd_zeroes (Int.tmod n (r.count : Int)).natAbs r r' hwf
              (by omega) hclt hz he
            rw [h1] at he
            obtain rfl := Except.ok.inj he
            exact ⟨hwf''.wfx, hz'⟩
          · rw [hk', rotFwd_oob (by rcases hx.2.1 with h | h <;> omega)
              (le_of_eq hB.1.symm) k'] at he
            exact Except.noConfusion he

/-! Preservation of `WFx` and `Zeroes` by `Insert` and `Remove`. -/

theorem insert_pres {r r' : Ring T} (hx : WFx r) (hz : Zeroes r) {pos : Int} {v : T}
    (he : r.Insert pos v = .ok r') : WFx r' ∧ Zeroes r' := by
  have hcle := hx.1
  by_cases hb : 0 ≤ pos ∧ pos ≤ (r.count : Int)
  · by_cases hf : r.count = r.buf.length
    · rw [insert_full (by omega) (by simp [Full, hf]) v] at he
      exact Except.noConfusion he
    · have hlt : r.count < r.buf.length := by omega
      have hc : 0 < r.buf.length := by omega
      have haN : pos.toNat ≤ r.count := by omega
      have hnotfull : ¬ r.Full = true := by
        simp [Full]
        omega
      unfold Insert at he
      rw [if_neg (by omega), if_neg hnotfull] at he
      dsimp only at he
      by_cases hA2 : pos.toNat * 2 < r.count
      · rw [if_pos hA2, pushFront_eq_not_full hlt v, bindOk] at he
        simp only [Pure.pure, Except.pure] at he
        obtain rfl := Except.ok.inj he
        have pres1 := pushFront_pres hx hz (pushFront_eq_not_full hlt v)
        have hfields := insertShiftF_fields pos.toNat
          (⟨r.buf.set ((r.head + r.buf.length - 1) % r.buf.length) v,
            (r.head + r.buf.length - 1) % r.buf.length, r.tail, r.count + 1⟩ : Ring T)
          ((r.head + r.buf.length - 1) % r.buf.length)
        refine ⟨wfx_of_fields pres1.1 hfields.1 hfields.2.1 hfields.2.2.1 hfields.2.2.2, ?_⟩
        exact zeroes_insertShiftF pos.toNat _ 0 _
          (show 0 + pos.toNat < r.count + 1 from by omega)
          (by simp only [List.length_set]; omega)
          (by simp only [List.length_set]
              rw [Nat.add_zero, Nat.mod_eq_of_lt (Nat.mod_lt _ hc)])
          pres1.2
      · rcases hx.2.2 with hA | hB
        · have hwf : WF r := ⟨hx.1, hx.2.1, hA⟩
          obtain ⟨r1, he1, hwf1, hcnt1, hlen1, hh1, hlist1⟩ := pushBack_spec hwf hlt v
          rw [if_neg hA2, he1, bindOk] at he
          simp only [Pure.pure, Except.pure] at he
          obtain rfl := Except.ok.inj he
          have pres1 := pushBack_pres hx hz he1
          have hback : r1.prev r1.tail = (r1.head + r.count) % r1.buf.length := by
            unfold prev
            rw [hwf1.tail_eq, slot_pred (by omega) r1.head (show 1 ≤ r1.count from by omega),
              hcnt1, Nat.add_sub_cancel]
          have hfields := insertShiftB_fields (r.count - pos.toNat) r1 (r1.prev r1.tail)
          refine ⟨wfx_of_fields pres1.1 hfields.1 hfields.2.1 hfields.2.2.1 hfields.2.2.2, ?_⟩
          exact zeroes_insertShiftB (r.count - pos.toNat) r1 r.count (r1.prev r1.tail)
            (by omega) (by omega) hwf1.count_le hback pres1.2
        · rw [if_neg hA2, pushBack_eq_oob (by omega) v, bindErr] at he
          exact Except.noConfusion he
  · rw [insert_oor (by omega) v] at he
    exact Except.noConfusion he

theorem remove_pres {r : Ring T} {p : T × Ring T} (hx : WFx r) (hz : Zeroes r) {pos : Int}
    (he : r.Remove pos = .ok p) : WFx p.2 ∧ Zeroes p.2 := by
  have hcle := hx.1
  by_cases hb : 0 ≤ pos ∧ pos < (r.count : Int)
  · have hc0 : 0 < r.count := by omega
    have hc : 0 < r.buf.length := by omega
    have haN : pos.toNat < r.count := by omega
    unfold Remove at he
    rw [if_neg (by unfold Len; omega), if_neg (by omega)] at he
    dsimp only at he
    by_cases hA2 : pos.toNat * 2 < r.count
    · rw [if_pos hA2,
        removeShiftF_eq_insertShiftB pos.toNat r ((r.head + pos.toNat) % r.buf.length)] at he
      have hfields := insertShiftB_fields pos.toNat r ((r.head + pos.toNat) % r.buf.length)
      exact popFront_pres
        (wfx_of_fields hx hfields.1 hfields.2.1 hfields.2.2.1 hfields.2.2.2)
        (zeroes_insertShiftB pos.toNat r pos.toNat _ haN (le_refl _) hcle rfl hz) he
    · rw [if_neg hA2,
        removeShiftB_eq_insertShiftF (r.count - pos.toNat - 1) r
          ((r.head + pos.toNat) % r.buf.length)] at he
      have hfields := insertShiftF_fields (r.count - pos.toNat - 1) r
        ((r.head + pos.toNat) % r.buf.length)
      exact popBack_pres
        (wfx_of_fields hx hfields.1 hfields.2.1 hfields.2.2.1 hfields.2.2.2)
        (zeroes_insertShiftF (r.count - pos.toNat - 1) r pos.toNat _ (by omega) hcle rfl hz)
        he
  · rw [remove_oor (by omega)] at he
    exact Except.noConfusion he

/-! Preservation by `Reset` (which in fact zeroes every slot). -/

theorem foldl_set_length (L : List Nat) : ∀ (b : List T) (h len : Nat),
    (L.foldl (fun b i => b.set ((h + i) % len) default) b).length = b.length := by
  induction L with
  | nil => intro b h len; rfl
  | cons x xs ih =>
    intro b h len
    rw [List.foldl_cons, ih, List.length_set]

theorem foldl_set_getD_keep (L : List Nat) : ∀ (b : List T) (h len j : Nat),
    b.getD j default = default →
    (L.foldl (fun b i => b.set ((h + i) % len) default) b).getD j default = default := by
  induction L with
  | nil => intro b h len j hd; exact hd
  | cons x xs ih =>
    intro b h len j hd
    rw [List.foldl_cons]
    apply ih
    rw [getD_set]
    by_cases hx2 : (h + x) % len = j ∧ (h + x) % len < b.length
    · rw [if_pos hx2]
    · rw [if_neg hx2]
      exact hd

theorem foldl_set_getD_hit (L : List Nat) : ∀ (b : List T) (h len j : Nat),
    (∃ i ∈ L, (h + i) % len = j) → j < b.length →
    (L.foldl (fun b i => b.set ((h + i) % len) default) b).getD j default = default := by
  induction L with
  | nil =>
    rintro b h len j ⟨i, hi, -⟩ -
    exact absurd hi (List.not_mem_nil i)
  | cons x xs ih =>
    rintro b h len j ⟨i, hi, hie⟩ hj
    rw [List.foldl_cons]
    rcases List.mem_cons.mp hi with rfl | hmem
    · apply foldl_set_getD_keep
      rw [getD_set, if_pos ⟨hie, by omega⟩]
    · exact ih _ _ _ _ ⟨i, hmem, hie⟩ (by rw [List.length_set]; exact hj)

theorem reset_len (r : Ring T) : (Reset r).buf.length = r.buf.length := by
  unfold Reset
  dsimp only
  exact foldl_set_length _ _ _ _

theorem reset_buf_default {r : Ring T} (hz : Zeroes r) :
    ∀ j, j < r.buf.length → (Reset r).buf.getD j default = default := by
  intro j hj
  unfold Reset
  dsimp only
  by_cases hocc : ∃ i, i < r.count ∧ (r.head + i) % r.buf.length = j
  · obtain ⟨i, hi, hie⟩ := hocc
    exact foldl_set_getD_hit _ _ _ _ _ ⟨i, List.mem_range.mpr hi, hie⟩ hj
  · apply foldl_set_getD_keep
    apply hz j hj
    intro i hi hie
    exact hocc ⟨i, hi, hie⟩

theorem reset_pres {r : Ring T} (hz : Zeroes r) : WFx (Reset r) ∧ Zeroes (Reset r) := by
  constructor
  · refine ⟨Nat.zero_le _, Or.inl rfl, Or.inl ?_⟩
    show (0 : Nat) = (0 + 0) % (Reset r).buf.length
    simp
  · intro j hj hun
    have hj' : j < (Reset r).buf.length := hj
    rw [reset_len] at hj'
    exact reset_buf_default hz j hj'

/-! Preservation by `Resize`: the copied-to region of the fresh buffer is
exactly the new occupied prefix and everything past it stays zero. -/

theorem goCopy_length {dst : List T} {k : Nat} (src : List T) (hk : k ≤ dst.length) :
    (goCopy dst k src).1.length = dst.length := by
  unfold goCopy
  simp only [List.length_append, List.length_take, List.length_drop]
  omega

theorem getD_append_ge (l1 l2 : List T) (i : Nat) (h : l1.length ≤ i) :
    (l1 ++ l2).getD i default = l2.getD (i - l1.length) default := by
  rw [List.getD_eq_getElem?_getD, List.getElem?_append_right h,
    ← List.getD_eq_getElem?_getD]

theorem goCopy_getD_default {dst : List T} {k : Nat} (hk : k ≤ dst.length)
    (hd : ∀ j, k ≤ j → dst.getD j default = default) (src : List T) :
    ∀ j, k + (goCopy dst k src).2 ≤ j →
      (goCopy dst k src).1.getD j default = default := by
  intro j hj
  have hj' : k + min (dst.length - k) src.length ≤ j := hj
  show ((dst.take k ++ src.take (min (dst.length - k) src.length)
      ++ dst.drop (k + min (dst.length - k) src.length)).getD j default) = default
  rw [List.append_assoc,
    getD_append_ge _ _ _ (by simp only [List.length_take]; omega),
    getD_append_ge _ _ _ (by simp only [List.length_take]; omega),
    getD_drop]
  apply hd
  omega

theorem wfx_of_initseg (C : List T) (c' : Nat) (hle : c' ≤ C.length) :
    WFx (⟨C, 0, c', c'⟩ : Ring T) := by
  refine ⟨hle, Or.inl rfl, ?_⟩
  rcases Nat.lt_or_ge c' C.length with hlt | hge
  · left
    show c' = (0 + c') % C.length
    rw [Nat.zero_add, Nat.mod_eq_of_lt hlt]
  · have heq : c' = C.length := by omega
    rcases Nat.eq_zero_or_pos C.length with hz0 | hp
    · left
      show c' = (0 + c') % C.length
      rw [Nat.zero_add, heq, hz0, Nat.mod_zero]
    · right
      refine ⟨heq, ?_⟩
      show (0 + c') % C.length = 0
      rw [Nat.zero_add, heq, Nat.mod_self]

theorem zeroes_of_initseg (C : List T) (c' : Nat) (hle : c' ≤ C.length)
    (hd : ∀ j, c' ≤ j → C.getD j default = default) :
    Zeroes (⟨C, 0, c', c'⟩ : Ring T) := by
  intro j hj hun
  rcases Nat.lt_or_ge j c' with hlt | hge
  · exact absurd (by rw [Nat.zero_add, Nat.mod_eq_of_lt (by omega)]) (hun j hlt)
  · exact hd j hge

theorem goCopy_ring_pres (dst src : List T) (k : Nat) (hk : k ≤ dst.length)
    (hd : ∀ j, k ≤ j → dst.getD j default = default) :
    WFx (⟨(goCopy dst k src).1, 0, k + (goCopy dst k src).2,
      k + (goCopy dst k src).2⟩ : Ring T) ∧
    Zeroes (⟨(goCopy dst k src).1, 0, k + (goCopy dst k src).2,
      k + (goCopy dst k src).2⟩ : Ring T) := by
  have hlen := goCopy_length src hk
  have hsnd : k + (goCopy dst k src).2 ≤ dst.length := by
    show k + min (dst.length - k) src.length ≤ dst.length
    omega
  exact ⟨wfx_of_initseg _ _ (by rw [hlen]; exact hsnd),
    zeroes_of_initseg _ _ (by rw [hlen]; exact hsnd) (goCopy_getD_default hk hd src)⟩

theorem resize_pres {r : Ring T} (hx : WFx r) (hz : Zeroes r) (n : Nat) :
    WFx (r.Resize n) ∧ Zeroes (r.Resize n) := by
  unfold Resize
  by_cases h00 : r.count = n
  · rw [if_pos h00]
    exact ⟨hx, hz⟩
  · rw [if_neg h00]
    dsimp only
    have hrepl : ∀ j, (0 : Nat) ≤ j →
        (List.replicate n (default : T)).getD j default = default :=
      fun j _ => getD_replicate_default n j
    by_cases hht : r.head < r.tail
    · rw [if_pos hht]
      have h := goCopy_ring_pres (List.replicate n (default : T))
        ((r.buf.take r.tail).drop r.head) 0 (Nat.zero_le _) hrepl
      simpa only [Nat.zero_add] using h
    · rw [if_neg hht]
      by_cases h2 : (goCopy (List.replicate n (default : T)) 0 (r.buf.drop r.head)).2
          < r.buf.length
      · rw [if_pos h2]
        have hz1 : ∀ j,
            (goCopy (List.replicate n (default : T)) 0 (r.buf.drop r.head)).2 ≤ j →
            (goCopy (List.replicate n (default : T)) 0
              (r.buf.drop r.head)).1.getD j default = default :=
          fun j hj => goCopy_getD_default (Nat.zero_le _) hrepl (r.buf.drop r.head) j
            (by omega)
        have hk2 : (goCopy (List.replicate n (default : T)) 0 (r.buf.drop r.head)).2
            ≤ (goCopy (List.replicate n (default : T)) 0 (r.buf.drop r.head)).1.length := by
          rw [goCopy_length _ (Nat.zero_le _)]
          show min ((List.replicate n (default : T)).length - 0)
            (r.buf.drop r.head).length ≤ _
          simp only [List.length_replicate, Nat.sub_zero]
          omega
        exact goCopy_ring_pres _ (r.buf.take r.tail) _ hk2 hz1
      · rw [if_neg h2]
        have h := goCopy_ring_pres (List.replicate n (default : T)) (r.buf.drop r.head) 0
          (Nat.zero_le _) hrepl
        simpa only [Nat.zero_add] using h

/-! Every reachable state satisfies the relaxed well-formedness and the
zero-slot invariant. -/

theorem reachable_wfx_zeroes {r : Ring T} (h : Reachable r) : WFx r ∧ Zeroes r := by
  induction h with
  | new c => exact ⟨wfx_new c, zeroes_new c⟩
  | pushBack v hr he ih => exact pushBack_pres ih.1 ih.2 he
  | pushFront v hr he ih => exact pushFront_pres ih.1 ih.2 he
  | popFront hr he ih => exact popFront_pres ih.1 ih.2 he
  | popBack hr he ih => exact popBack_pres ih.1 ih.2 he
  | set i v hr he ih => exact set_pres ih.1 ih.2 he
  | rotate n hr he ih => exact rotate_pres ih.1 ih.2 n he
  | insert pos v hr he ih => exact insert_pres ih.1 ih.2 he
  | remove pos hr he ih => exact remove_pres ih.1 ih.2 he
  | reset hr ih => exact reset_pres ih.2
  | resize n hr ih => exact resize_pres ih.1 ih.2 n


end Ring

/-! ### Claim theorems -/

/-- C1: the claim states that `RIndex(f)` returns the largest logical index
`i < Len()` with `f(At(i))`, for every ring.  The code divides by `Len()`
instead of `len(buf)` when mapping logical to physical indices, so on the
well-formed ring `exRing` (capacity 4, contents `[20, 30, 40]`, `head = 1`)
it probes slot `(1+2) % 3 = 0` — a vacated slot holding the zero value —
instead of slot 3, and misses the match at logical index 2: `RIndex (== 40)`
returns `-1` although `At 2 = 40` (and `Index (== 40) = 2`).  This theorem
evaluates the code at that failing input. -/
theorem c1_rindex_code_bug :
    Ring.WF exRing ∧ exRing.RIndex (fun x => x == 40) = -1 ∧
      exRing.At 2 = .ok 40 ∧ exRing.Index (fun x => x == 40) = 2 ∧
      ORing.RIndex (none : Option (Ring Int)) (fun x => x == 40) = -1 :=
  ⟨by decide, rfl, rfl, rfl, rfl⟩

/-- C2: the claim states that `Resize(n)` always yields
`Len() == min(old Len(), n)`.  On an empty ring of capacity 4, `Resize(2)`
takes the wrap-around copy branch (`tail > head` fails), copies two
zero-valued slots out of the backing array and sets `count = 2`, so
`Len()` jumps from 0 to 2.  This theorem evaluates the code at that failing
input. -/
theorem c2_resize_code_bug :
    (New Int 4).Len = 0 ∧ ((New Int 4).Resize 2).Len = 2 ∧
      ((New Int 4).Resize 2).head = 0 ∧ ((New Int 4).Resize 2).tail = 2 :=
  ⟨rfl, rfl, rfl, rfl⟩

/-- C3: pushing onto a full well-formed ring of capacity ≥ 1 never changes
`Len()` and evicts exactly the element at the opposite end: after
`PushBack(v)` the logical sequence is the old one with its front removed and
`v` appended, and both `head` and `tail` advance; symmetrically,
`PushFront(w)` drops the old back element and prepends `w` (head and tail
both retreat). -/
theorem c3_push_on_full {T : Type} [Inhabited T] (r : Ring T) (v w : T)
    (hwf : Ring.WF r) (hfull : r.Full = true) (hc : 1 ≤ r.Cap) :
    (∃ r', r.PushBack v = .ok r' ∧ r'.Len = r.Len ∧ r'.Cap = r.Cap ∧
      Ring.toList r' = (Ring.toList r).drop 1 ++ [v] ∧
      r'.head = (r.head + 1) % r.Cap ∧ r'.tail = (r.tail + 1) % r.Cap) ∧
    (∃ r'', r.PushFront w = .ok r'' ∧ r''.Len = r.Len ∧ r''.Cap = r.Cap ∧
      Ring.toList r'' = w :: (Ring.toList r).dropLast ∧
      r''.head = (r.head + r.Cap - 1) % r.Cap ∧
      r''.tail = (r.tail + r.Cap - 1) % r.Cap) := by
  have hcnt : r.count = r.buf.length := by simpa [Ring.Full] using hfull
  have hcL : 0 < r.buf.length := hc
  constructor
  · obtain ⟨r', he, hwf', hcnt', hlen', hlist⟩ := Ring.pushBack_full_spec hwf hcL hcnt v
    have heq := Ring.pushBack_eq_full hwf hcL hcnt v
    rw [he] at heq
    have hfields := Except.ok.inj heq
    refine ⟨r', he, by simp [Ring.Len, hcnt'], by simp [Ring.Cap, hlen'], hlist, ?_, ?_⟩
    · rw [hfields]
      rfl
    · rw [hfields]
      rfl
  · obtain ⟨r'', he, hwf', hcnt', hlen', hlist⟩ := Ring.pushFront_full_spec hwf hcL hcnt w
    have heq := Ring.pushFront_eq_full hcL hcnt w
    rw [he] at heq
    have hfields := Except.ok.inj heq
    refine ⟨r'', he, by simp [Ring.Len, hcnt'], by simp [Ring.Cap, hlen'], hlist, ?_, ?_⟩
    · rw [hfields]
      rfl
    · rw [hfields]
      rfl

/-- C3 (witness): the theorem applied to the concrete full ring `exFull`
(capacity 4, contents `[30, 40, 10, 20]`) with pushed values 50 and 60. -/
theorem c3_witness :
    Ring.WF exFull ∧ exFull.Full = true ∧ 1 ≤ exFull.Cap ∧
      ((∃ r', exFull.PushBack 50 = .ok r' ∧ r'.Len = exFull.Len ∧ r'.Cap = exFull.Cap ∧
        Ring.toList r' = (Ring.toList exFull).drop 1 ++ [50] ∧
        r'.head = (exFull.head + 1) % exFull.Cap ∧
        r'.tail = (exFull.tail + 1) % exFull.Cap) ∧
      (∃ r'', exFull.PushFront 60 = .ok r'' ∧ r''.Len = exFull.Len ∧
        r''.Cap = exFull.Cap ∧
        Ring.toList r'' = 60 :: (Ring.toList exFull).dropLast ∧
        r''.head = (exFull.head + exFull.Cap - 1) % exFull.Cap ∧
        r''.tail = (exFull.tail + exFull.Cap - 1) % exFull.Cap)) :=
  ⟨by decide, by decide, by decide,
    c3_push_on_full exFull 50 60 (by decide) (by decide) (by decide)⟩

/-- C4: for every well-formed ring, `Rotate(n)` succeeds, leaves `Len()` and
`Cap()` unchanged and cyclically shifts the contents front-to-back: for every
`0 ≤ i < Len()`, `At(i)` after equals `At((i + n) mod Len())` before, with
the modulus taken into `[0, Len())`.  Moreover `Rotate` does nothing when
`Len() ≤ 1` or when the ring is absent, rotating by any multiple of `Len()`
is a no-op, and `Rotate(Cap()+1)` on a full ring is the very same operation
as `Rotate(1)`. -/
theorem c4_rotate {T : Type} [Inhabited T] (r : Ring T) (n : Int) (hwf : Ring.WF r) :
    (∃ r', r.Rotate n = .ok r' ∧ r'.Len = r.Len ∧ r'.Cap = r.Cap ∧
      ∀ i : Int, 0 ≤ i → i < (r.Len : Int) →
        r'.At i = r.At ((i + n) % (r.Len : Int))) ∧
    (r.Len ≤ 1 → r.Rotate n = .ok r) ∧
    (∀ k : Int, r.Rotate (k * (r.Len : Int)) = .ok r) ∧
    (r.Full = true → r.Rotate ((r.Cap : Int) + 1) = r.Rotate 1) ∧
    ORing.Rotate (none : Option (Ring T)) n = .ok none := by
  refine ⟨?_, ?_, ?_, ?_, rfl⟩
  · obtain ⟨r', hr', hwf', hcnt', hlen', hlist'⟩ := Ring.rotate_spec hwf n
    refine ⟨r', hr', by simp [Ring.Len, hcnt'], by simp [Ring.Cap, hlen'], ?_⟩
    intro i h0 hi
    have hi' : i < (r.count : Int) := hi
    have hcpos : 0 < r.count := by omega
    have hcpI : (0 : Int) < (r.count : Int) := by exact_mod_cast hcpos
    have hj0 : 0 ≤ (i + n) % (r.count : Int) := Int.emod_nonneg _ (by omega)
    have hjlt : (i + n) % (r.count : Int) < (r.count : Int) :=
      Int.emod_lt_of_pos _ hcpI
    have hepos : (0 : Int) ≤ n % (r.count : Int) := Int.emod_nonneg n (by omega)
    rw [show (r.Len : Int) = (r.count : Int) from rfl]
    rw [Ring.at_ok hwf' h0 (by rw [hcnt']; exact hi'), Ring.at_ok hwf hj0 hjlt]
    congr 1
    rw [hlist', Ring.getD_rotate _ _ _ (by simp [Ring.toList_length]; omega)]
    simp only [Ring.toList_length]
    congr 1
    apply Nat.cast_inj (R := Int) |>.mp
    rw [Int.natCast_mod, Int.toNat_of_nonneg hj0]
    push_cast [Int.toNat_of_nonneg h0, Int.toNat_of_nonneg hepos]
    exact Int.ModEq.add_left i (Int.emod_emod_of_dvd n (dvd_refl _))
  · intro hle
    have hle' : r.count ≤ 1 := hle
    unfold Ring.Rotate Ring.Len
    rw [if_pos hle']
  · intro k
    by_cases hle : r.count ≤ 1
    · unfold Ring.Rotate Ring.Len
      rw [if_pos hle]
    · unfold Ring.Rotate Ring.Len
      rw [if_neg hle]
      dsimp only
      rw [if_pos (Int.mul_tmod_left k ((r.count : Int)))]
  · intro hfull
    have hcnt : r.count = r.buf.length := by simpa [Ring.Full] using hfull
    by_cases hle : r.count ≤ 1
    · unfold Ring.Rotate Ring.Len
      rw [if_pos hle]
      rw [if_pos hle]
    · have h2 : 2 ≤ r.count := by omega
      have ht1 : Int.tmod ((r.Cap : Int) + 1) (r.count : Int) = 1 := by
        rw [show (r.Cap : Int) = (r.count : Int) from by
          simp [Ring.Cap, hcnt]]
        rw [Int.tmod_eq_emod (by omega) (by omega),
          show (r.count : Int) + 1 = 1 + (r.count : Int) * 1 from by ring,
          Int.add_mul_emod_self_left]
        exact Int.emod_eq_of_lt (by omega) (by exact_mod_cast (by omega : 1 < r.count))
      have ht2 : Int.tmod 1 (r.count : Int) = 1 :=
        Int.tmod_eq_of_lt (by omega) (by exact_mod_cast (by omega : 1 < r.count))
      unfold Ring.Rotate Ring.Len
      rw [if_neg hle]
      dsimp only
      rw [ht1, ht2, if_neg hle]

/-- C4 (witness): the rotate theorem applied to the concrete well-formed
ring `exRing` with `n = 5`. -/
theorem c4_witness :
    Ring.WF exRing ∧
      ((∃ r', exRing.Rotate 5 = .ok r' ∧ r'.Len = exRing.Len ∧ r'.Cap = exRing.Cap ∧
        ∀ i : Int, 0 ≤ i → i < (exRing.Len : Int) →
          r'.At i = exRing.At ((i + 5) % (exRing.Len : Int))) ∧
      (exRing.Len ≤ 1 → exRing.Rotate 5 = .ok exRing) ∧
      (∀ k : Int, exRing.Rotate (k * (exRing.Len : Int)) = .ok exRing) ∧
      (exRing.Full = true → exRing.Rotate ((exRing.Cap : Int) + 1) = exRing.Rotate 1) ∧
      ORing.Rotate (none : Option (Ring Int)) 5 = .ok none) :=
  ⟨by decide, c4_rotate exRing 5 (by decide)⟩

/-- C5 (counterexample): the claim states that `PushBack` and `PushFront`
never fail on any ring state, including a ring constructed with capacity
zero.  On `New[T](0)` the write `r.buf[r.tail]` in `PushBack` is an
out-of-range slice access, and `prev` in `PushFront` divides by zero, so
both panic. -/
theorem c5_counterexample :
    Ring.okb ((New Int 0).PushBack 7) = false ∧
      (New Int 0).PushBack 7 = .error (.runtimeOutOfBounds 0 0, New Int 0) ∧
      Ring.okb ((New Int 0).PushFront 7) = false ∧
      (New Int 0).PushFront 7 = .error (.runtimeDivByZero, New Int 0) :=
  ⟨rfl, rfl, rfl, rfl⟩

/-- C5 (amended): `PushBack(item)` and `PushFront(item)` never fail on any
well-formed ring whose capacity is at least 1 (a zero-capacity ring makes
both panic on a runtime error, see the counterexample). -/
theorem c5_push_never_fails {T : Type} [Inhabited T] (r : Ring T) (v : T)
    (hwf : Ring.WF r) (hc : 1 ≤ r.Cap) :
    Ring.okb (r.PushBack v) = true ∧ Ring.okb (r.PushFront v) = true := by
  have hcle := hwf.count_le
  have hclen : 1 ≤ r.buf.length := hc
  constructor
  · rcases Nat.lt_or_ge r.count r.buf.length with h | h
    · obtain ⟨r', he, -⟩ := Ring.pushBack_spec hwf h v
      rw [he]
      rfl
    · obtain ⟨r', he, -⟩ := Ring.pushBack_full_spec hwf (by omega) (by omega) v
      rw [he]
      rfl
  · rcases Nat.lt_or_ge r.count r.buf.length with h | h
    · obtain ⟨r', he, -⟩ := Ring.pushFront_spec hwf h v
      rw [he]
      rfl
    · obtain ⟨r', he, -⟩ := Ring.pushFront_full_spec hwf (by omega) (by omega) v
      rw [he]
      rfl

/-- C5 (witness): the amended theorem applied to the concrete well-formed
ring `exRing` of capacity 4. -/
theorem c5_witness :
    Ring.WF exRing ∧ 1 ≤ exRing.Cap ∧
      (Ring.okb (exRing.PushBack 7) = true ∧ Ring.okb (exRing.PushFront 7) = true) :=
  ⟨by decide, by decide, c5_push_never_fails exRing 7 (by decide) (by decide)⟩

/-- C6: on every well-formed ring each fallible operation fails exactly when
its documented precondition is violated — `At`, `Set` and `Remove` succeed
iff the index is in `[0, count)`, `Insert` succeeds iff the position is in
`[0, count]` and the ring is not full, and `Front`, `Back`, `PopFront` and
`PopBack` succeed iff the ring is non-empty — and every failing operation
leaves the ring completely unmutated: the panic payload carries the state
exactly as it was, because each operation validates its precondition before
mutating anything. -/
theorem c6_failure_contract {T : Type} [Inhabited T] (r : Ring T) (i pos : Int) (v : T)
    (hwf : Ring.WF r) : Ring.FailContract r i pos v := by
  have hcle := hwf.count_le
  refine ⟨⟨?_, ?_⟩, ?_, ⟨?_, ?_⟩, ?_, ⟨?_, ?_⟩, ?_, ⟨?_, ?_⟩, ?_, ⟨?_, ?_⟩, ?_,
    ⟨?_, ?_⟩, ?_, ⟨?_, ?_⟩, ?_, ⟨?_, ?_⟩, ?_⟩
  · rintro ⟨x, hx⟩
    by_contra hcon
    rw [Ring.at_oor (by omega)] at hx
    exact Except.noConfusion hx
  · rintro ⟨h0, hlt⟩
    exact ⟨_, Ring.at_ok hwf h0 hlt⟩
  · by_cases hb : 0 ≤ i ∧ i < (r.count : Int)
    · rw [Ring.at_ok hwf hb.1 hb.2]
      exact trivial
    · rw [Ring.at_oor (by omega)]
      exact rfl
  · rintro ⟨x, hx⟩
    by_contra hcon
    rw [Ring.set_oor (by omega) v] at hx
    exact Except.noConfusion hx
  · rintro ⟨h0, hlt⟩
    exact ⟨_, Ring.set_ok hwf h0 hlt v⟩
  · by_cases hb : 0 ≤ i ∧ i < (r.count : Int)
    · rw [Ring.set_ok hwf hb.1 hb.2 v]
      exact trivial
    · rw [Ring.set_oor (by omega) v]
      exact rfl
  · rintro ⟨p, hp⟩
    by_contra hcon
    rw [Ring.remove_oor (by omega)] at hp
    exact Except.noConfusion hp
  · rintro ⟨h0, hlt⟩
    obtain ⟨r2, he, -⟩ := Ring.remove_spec hwf h0 hlt
    exact ⟨_, he⟩
  · by_cases hb : 0 ≤ pos ∧ pos < (r.count : Int)
    · obtain ⟨r2, he, -⟩ := Ring.remove_spec hwf hb.1 hb.2
      rw [he]
      exact trivial
    · rw [Ring.remove_oor (by omega)]
      exact rfl
  · rintro ⟨s, hs⟩
    constructor
    · by_contra hcon
      rw [Ring.insert_oor (by omega) v] at hs
      exact Except.noConfusion hs
    · intro hf
      by_cases hb : 0 ≤ pos ∧ pos ≤ (r.count : Int)
      · rw [Ring.insert_full (by omega) (by simp [Ring.Full, hf]) v] at hs
        exact Except.noConfusion hs
      · rw [Ring.insert_oor (by omega) v] at hs
        exact Except.noConfusion hs
  · rintro ⟨⟨h0, hle⟩, hnf⟩
    obtain ⟨r1, he, -⟩ := Ring.insert_spec hwf h0 hle (by omega) v
    exact ⟨_, he⟩
  · by_cases hb : 0 ≤ pos ∧ pos ≤ (r.count : Int)
    · by_cases hf : r.count = r.buf.length
      · rw [Ring.insert_full (by omega) (by simp [Ring.Full, hf]) v]
        exact rfl
      · obtain ⟨r1, he, -⟩ := Ring.insert_spec hwf hb.1 hb.2 (by omega) v
        rw [he]
        exact trivial
    · rw [Ring.insert_oor (by omega) v]
      exact rfl
  · rintro ⟨x, hx⟩ h0
    rw [Ring.front_empty h0] at hx
    exact Except.noConfusion hx
  · intro h
    exact ⟨_, Ring.front_ok hwf (Nat.pos_of_ne_zero h)⟩
  · by_cases h : r.count = 0
    · rw [Ring.front_empty h]
      exact rfl
    · rw [Ring.front_ok hwf (Nat.pos_of_ne_zero h)]
      exact trivial
  · rintro ⟨x, hx⟩ h0
    rw [Ring.back_empty h0] at hx
    exact Except.noConfusion hx
  · intro h
    exact ⟨_, Ring.back_ok hwf (Nat.pos_of_ne_zero h)⟩
  · by_cases h : r.count = 0
    · rw [Ring.back_empty h]
      exact rfl
    · rw [Ring.back_ok hwf (Nat.pos_of_ne_zero h)]
      exact trivial
  · rintro ⟨p, hp⟩ h0
    rw [Ring.popFront_empty h0] at hp
    exact Except.noConfusion hp
  · intro h
    obtain ⟨x, r2, he, -⟩ := Ring.popFront_spec hwf (Nat.pos_of_ne_zero h)
    exact ⟨_, he⟩
  · by_cases h : r.count = 0
    · rw [Ring.popFront_empty h]
      exact rfl
    · obtain ⟨x, r2, he, -⟩ := Ring.popFront_spec hwf (Nat.pos_of_ne_zero h)
      rw [he]
      exact trivial
  · rintro ⟨p, hp⟩ h0
    rw [Ring.popBack_empty h0] at hp
    exact Except.noConfusion hp
  · intro h
    obtain ⟨x, r2, he, -⟩ := Ring.popBack_spec hwf (Nat.pos_of_ne_zero h)
    exact ⟨_, he⟩
  · by_cases h : r.count = 0
    · rw [Ring.popBack_empty h]
      exact rfl
    · obtain ⟨x, r2, he, -⟩ := Ring.popBack_spec hwf (Nat.pos_of_ne_zero h)
      rw [he]
      exact trivial

/-- C6 (witness): the failure contract at the concrete well-formed ring
`exRing` with `i = 1`, `pos = 2`, `v = 7`. -/
theorem c6_witness : Ring.WF exRing ∧ Ring.FailContract exRing 1 2 7 :=
  ⟨by decide, c6_failure_contract exRing 1 2 7 (by decide)⟩

/-- C7: on every non-full well-formed ring, position `0 ≤ at ≤ Len()` and
value `v`, `Insert(at, v)` succeeds and the new logical sequence is the old
elements `0..at-1`, then `v`, then the old elements `at..count-1` (length
grows by one); the following `Remove(at)` succeeds, returns `v` unchanged,
and restores the prior logical sequence, length and capacity. -/
theorem c7_insert_remove_complement {T : Type} [Inhabited T] (r : Ring T) (pos : Int)
    (v : T) (hwf : Ring.WF r) (h0 : 0 ≤ pos) (hle : pos ≤ (r.Len : Int))
    (hnf : r.Len < r.Cap) :
    ∃ r1, r.Insert pos v = .ok r1 ∧
      Ring.toList r1 =
        (Ring.toList r).take pos.toNat ++ v :: (Ring.toList r).drop pos.toNat ∧
      r1.Len = r.Len + 1 ∧
      ∃ r2, r1.Remove pos = .ok (v, r2) ∧ Ring.toList r2 = Ring.toList r ∧
        r2.Len = r.Len ∧ r2.Cap = r.Cap := by
  have hle' : pos ≤ (r.count : Int) := hle
  have hnf' : r.count < r.buf.length := hnf
  obtain ⟨r1, hins, hwf1, hcnt1, hlen1, hlist1⟩ := Ring.insert_spec hwf h0 hle' hnf' v
  have hlt1 : pos < (r1.count : Int) := by rw [hcnt1]; push_cast; omega
  obtain ⟨r2, hrem, hwf2, hcnt2, hlen2, hlist2⟩ := Ring.remove_spec hwf1 h0 hlt1
  have hRlen : pos.toNat ≤ (Ring.toList r).length := by
    rw [Ring.toList_length]
    omega
  have hv : (Ring.toList r1).getD pos.toNat default = v := by
    rw [hlist1, Ring.getD_insertList (Ring.toList r) pos.toNat hRlen v pos.toNat,
      if_neg (lt_irrefl _), if_pos rfl]
  refine ⟨r1, hins, hlist1, by simp [Ring.Len, hcnt1], r2, by rw [hrem, hv], ?_, ?_, ?_⟩
  · rw [hlist2, hlist1, Ring.insert_remove_list (Ring.toList r) pos.toNat hRlen v]
  · simp [Ring.Len, hcnt2, hcnt1]
  · simp [Ring.Cap, hlen2, hlen1]

/-- C7 (witness): insert 7 at position 1 of `exRing` (contents `[20,30,40]`)
and remove it again. -/
theorem c7_witness :
    Ring.WF exRing ∧ (0 : Int) ≤ 1 ∧ (1 : Int) ≤ (exRing.Len : Int) ∧
      exRing.Len < exRing.Cap ∧
      (∃ r1, exRing.Insert 1 7 = .ok r1 ∧
        Ring.toList r1 =
          (Ring.toList exRing).take (1 : Int).toNat ++
            7 :: (Ring.toList exRing).drop (1 : Int).toNat ∧
        r1.Len = exRing.Len + 1 ∧
        ∃ r2, r1.Remove 1 = .ok (7, r2) ∧ Ring.toList r2 = Ring.toList exRing ∧
          r2.Len = exRing.Len ∧ r2.Cap = exRing.Cap) :=
  ⟨by decide, by decide, by decide, by decide,
    c7_insert_remove_complement exRing 1 7 (by decide) (by decide) (by decide) (by decide)⟩

/-- C8: for every well-formed ring, valid index `0 ≤ i < Len()` and value
`v`, `Set(i, v)` succeeds; afterwards `At(i)` returns `v`, every other valid
index `j` reads the same value as before, and `Len()` and `Cap()` are
unchanged. -/
theorem c8_set_at_roundtrip {T : Type} [Inhabited T] (r : Ring T) (i j : Int) (v : T)
    (hwf : Ring.WF r) (h0 : 0 ≤ i) (hi : i < (r.Len : Int)) :
    ∃ r', r.Set i v = .ok r' ∧ r'.At i = .ok v ∧
      (0 ≤ j → j < (r.Len : Int) → j ≠ i → r'.At j = r.At j) ∧
      r'.Len = r.Len ∧ r'.Cap = r.Cap := by
  have hi' : i < (r.count : Int) := hi
  obtain ⟨r', hset, hwf', hcnt, hhead, htail, hlen, hlist⟩ := Ring.set_spec hwf h0 hi' v
  have htn : i.toNat < r.count := by omega
  refine ⟨r', hset, ?_, ?_, ?_, ?_⟩
  · rw [Ring.at_ok hwf' h0 (by omega)]
    congr 1
    rw [hlist, List.getD_eq_getElem _ _ (by simp [Ring.toList_length]; omega),
      List.getElem_set]
    simp
  · intro hj0 hjlt hji
    rw [Ring.at_ok hwf' hj0 (by rw [hcnt]; exact hjlt), Ring.at_ok hwf hj0 hjlt]
    congr 1
    have hjn : j.toNat < r.count := by
      have : j < (r.count : Int) := hjlt
      omega
    rw [hlist, List.getD_eq_getElem _ _ (by simp [Ring.toList_length]; omega),
      List.getElem_set, if_neg (by omega),
      List.getD_eq_getElem _ _ (by simp [Ring.toList_length]; omega)]
  · simpa [Ring.Len] using hcnt
  · simpa [Ring.Cap] using hlen

/-- C8 (witness): the round-trip theorem applied to `exRing` at `i = 2`,
`j = 0`, `v = 99`. -/
theorem c8_witness :
    Ring.WF exRing ∧ (0 : Int) ≤ 2 ∧ (2 : Int) < (exRing.Len : Int) ∧
      (∃ r', exRing.Set 2 99 = .ok r' ∧ r'.At 2 = .ok 99 ∧
        ((0 : Int) ≤ 0 → (0 : Int) < (exRing.Len : Int) → (0 : Int) ≠ 2 →
          r'.At 0 = exRing.At 0) ∧
        r'.Len = exRing.Len ∧ r'.Cap = exRing.Cap) :=
  ⟨by decide, by decide, by decide,
    c8_set_at_roundtrip exRing 2 0 99 (by decide) (by decide) (by decide)⟩

/-- C9: in every reachable ring state (any sequence of exported operations
following only non-panicking outcomes, starting from `New`), every storage
slot not occupied by a logical element holds the element type's zero value —
the pops, `Remove` and the element-moving rotate steps each zero the slot
they vacate, and the invariant survives every other operation, including the
`Resize` copies.  Moreover `Reset` zeroes the previously occupied slots as
well: after `Reset` every slot of the retained storage equals the zero
value, `Len()` is 0 and `Cap()` is unchanged. -/
theorem c9_zero_slots {T : Type} [Inhabited T] (r : Ring T) (hr : Ring.Reachable r) :
    Ring.Zeroes r ∧
      (∀ j, j < r.Reset.Cap → r.Reset.buf.getD j default = default) ∧
      r.Reset.Len = 0 ∧ r.Reset.Cap = r.Cap := by
  have hmain := Ring.reachable_wfx_zeroes hr
  refine ⟨hmain.2, ?_, rfl, ?_⟩
  · intro j hj
    have hj' : j < (Ring.Reset r).buf.length := hj
    rw [Ring.reset_len] at hj'
    exact Ring.reset_buf_default hmain.2 j hj'
  · show (Ring.Reset r).buf.length = r.buf.length
    exact Ring.reset_len r

/-- C9 (witness): the theorem at a state reached by three pushes and a pop
from `New Int 4` (storage `[0, 20, 30, 40]`, `head = 1`, three elements). -/
theorem c9_witness :
    Ring.Reachable exRing ∧
      (Ring.Zeroes exRing ∧
        (∀ j, j < exRing.Reset.Cap → exRing.Reset.buf.getD j default = default) ∧
        exRing.Reset.Len = 0 ∧ exRing.Reset.Cap = exRing.Cap) := by
  have h1 : Ring.Reachable exRing := by
    have h0 : Ring.Reachable (New Int 4) := Ring.Reachable.new 4
    have ha : Ring.Reachable (⟨[10, 0, 0, 0], 0, 1, 1⟩ : Ring Int) :=
      Ring.Reachable.pushBack 10 h0 rfl
    have hb : Ring.Reachable (⟨[10, 20, 0, 0], 0, 2, 2⟩ : Ring Int) :=
      Ring.Reachable.pushBack 20 ha rfl
    have hc : Ring.Reachable (⟨[10, 20, 30, 0], 0, 3, 3⟩ : Ring Int) :=
      Ring.Reachable.pushBack 30 hb rfl
    have hd : Ring.Reachable (⟨[10, 20, 30, 40], 0, 0, 4⟩ : Ring Int) :=
      Ring.Reachable.pushBack 40 hc rfl
    exact Ring.Reachable.popFront hd rfl
  exact ⟨h1, c9_zero_slots exRing h1⟩

/-- C10: for a nil (absent) ring and every index `i`, `At(i)` and
`Set(i, item)` fail with the out-of-range error reporting index `i` and
length 0 — the nil-tolerant `Len()` returns 0, so the bounds check fires for
every `i` before the receiver is dereferenced — and never produce any other
failure or state change. -/
theorem c10_nil_at_set {T : Type} [Inhabited T] (i : Int) (v : T) :
    ORing.At (none : Option (Ring T)) i = .error (.outOfRange i 0, none) ∧
      ORing.Set (none : Option (Ring T)) i v = .error (.outOfRange i 0, none) ∧
      ORing.Len (none : Option (Ring T)) = 0 :=
  ⟨rfl, rfl, rfl⟩

end GoRing
